import Mathlib

/-!
Shallow embedding of the polycube exact-cover solver
(`src/puzzle.rs`, `src/solver.rs`, `src/main.rs`).

Conventions of the embedding:
* Rust `i64` coordinates are modelled as `Int`, the `u64` occupancy bitmask
  (`Bitset(pub u64)`) as `Nat` with the bitwise operations `|||`, `&&&`, `^^^`
  and `Nat.testBit`.  This is exact for the volumes the single-word board of
  the code supports (cell count at most 64); theorems about mask generation
  carry the corresponding in-range hypotheses where they matter.
* Display-only fields (`Piece.name`, `Piece.id`, colors, timers, verbosity)
  are omitted: they never influence the search or the generated data.
* Fallible Rust operations that the claims touch are total on the domains the
  theorems quantify over; hypotheses (nonempty shapes, in-range piece indices)
  mark where the Rust code would panic.
-/

namespace Polycube

/-- `Coord` (src/puzzle.rs): an integer triple. -/
structure Coord where
  x : Int
  y : Int
  z : Int
deriving DecidableEq, Repr

/-- `Coord::rotate_x`: `(x,y,z) ↦ (x,−z,y)`. -/
def Coord.rotateX (c : Coord) : Coord :=
  ⟨c.x, -c.z, c.y⟩

/-- `Coord::rotate_y`: `(x,y,z) ↦ (z,y,−x)`. -/
def Coord.rotateY (c : Coord) : Coord :=
  ⟨c.z, c.y, -c.x⟩

/-- `Coord::rotate_z`: `(x,y,z) ↦ (−y,x,z)`. -/
def Coord.rotateZ (c : Coord) : Coord :=
  ⟨-c.y, c.x, c.z⟩

/-- `Orientation` (src/puzzle.rs): a list of coordinates (one rotation of a
piece).  The Rust newtype `Orientation(Vec<Coord>)` is modelled as the list
it wraps. -/
abbrev Orientation := List Coord

/-- Minimum of `f` over a nonempty orientation, as the Rust
`iter().map(f).min().unwrap()`.  (On the empty list, where Rust panics,
it returns `0`; theorems carry nonemptiness hypotheses.) -/
def minOn (f : Coord → Int) : Orientation → Int
  | [] => 0
  | c :: cs => cs.foldl (fun m d => min m (f d)) (f c)

/-- Maximum of `f` over a nonempty orientation (`iter().map(f).max().unwrap()`). -/
def maxOn (f : Coord → Int) : Orientation → Int
  | [] => 0
  | c :: cs => cs.foldl (fun m d => max m (f d)) (f c)

/-- `Orientation::offset`: per-axis minimum. -/
def orientationOffset (o : Orientation) : Coord :=
  ⟨minOn (·.x) o, minOn (·.y) o, minOn (·.z) o⟩

/-- `Orientation::bounds`: per-axis maximum. -/
def orientationBounds (o : Orientation) : Coord :=
  ⟨maxOn (·.x) o, maxOn (·.y) o, maxOn (·.z) o⟩

/-- Translation of every cell by `v` (used by `unique_placements` and by the
normalisation step). -/
def translateOri (v : Coord) (o : Orientation) : Orientation :=
  o.map fun c => ⟨c.x + v.x, c.y + v.y, c.z + v.z⟩

/-- The normalisation step shared by `Orientation::rotate` and
`Orientation::normalise`: subtract, per axis, the minimum coordinate. -/
def normaliseOri (o : Orientation) : Orientation :=
  translateOri ⟨-minOn (·.x) o, -minOn (·.y) o, -minOn (·.z) o⟩ o

/-- Apply a cell rotation `n` times (the Rust `for _ in 0..n` loop). -/
def iterN (f : Coord → Coord) : Nat → Coord → Coord
  | 0, c => c
  | n + 1, c => iterN f n (f c)

/-- `Orientation::rotate(x,y,z)`: apply `rotate_x` `a` times, `rotate_y`
`b` times, `rotate_z` `c` times to every cell, then normalise. -/
def rotateOri (a b c : Nat) (o : Orientation) : Orientation :=
  normaliseOri (o.map fun d => iterN Coord.rotateZ c (iterN Coord.rotateY b (iterN Coord.rotateX a d)))

/-- `Bitset::from_orientation`: OR together `1 << (z·Y·X + y·X + x)` over the
cells.  The `u64` mask is modelled as `Nat`; the (nonnegative) shift amount
is taken with `Int.toNat`. -/
def fromOrientation (o : Orientation) (dim : Coord) : Nat :=
  o.foldl (fun mask c => mask ||| 2 ^ (c.z * dim.y * dim.x + c.y * dim.x + c.x).toNat) 0

/-- The canonical bitmask used by `impl Hash/PartialEq for Orientation`:
the shape embedded in the hardcoded 4×4×4 reference frame. -/
def canonicalMask (o : Orientation) : Nat :=
  fromOrientation o ⟨4, 4, 4⟩

/-- `impl PartialEq for Orientation`: equality of the canonical 4×4×4 masks. -/
def orientationEq (a b : Orientation) : Bool :=
  canonicalMask a == canonicalMask b

/-- `itertools::unique()` with the `Hash`/`PartialEq` of `Orientation`:
keep the first occurrence of each canonical-mask class. -/
def uniqueByAux (f : Orientation → Nat) : List Orientation → List Nat → List Orientation
  | [], _ => []
  | a :: as, seen =>
    if f a ∈ seen then uniqueByAux f as seen
    else a :: uniqueByAux f as (f a :: seen)

def uniqueBy (f : Orientation → Nat) (l : List Orientation) : List Orientation :=
  uniqueByAux f l []

/-- `Piece` (src/puzzle.rs); the display fields `name`/`id` are omitted. -/
structure Piece where
  base : Orientation
  placements : List Nat
deriving DecidableEq, Repr

/-- The 24 candidate orientations generated by the loop body of
`Piece::orientations`: four x-rotated frames, each contributing the frame
itself plus its `(0,1,0)`, `(0,3,0)`, `(0,0,1)`, `(0,0,2)`, `(0,0,3)`
rotations.  Note the first candidate is the base *unnormalised*. -/
def orientationCandidates (base : Orientation) : List Orientation :=
  let step := fun (cur : Orientation) =>
    [cur, rotateOri 0 1 0 cur, rotateOri 0 3 0 cur,
     rotateOri 0 0 1 cur, rotateOri 0 0 2 cur, rotateOri 0 0 3 cur]
  let c0 := base
  let c1 := rotateOri 1 0 0 c0
  let c2 := rotateOri 1 0 0 c1
  let c3 := rotateOri 1 0 0 c2
  step c0 ++ step c1 ++ step c2 ++ step c3

/-- `Piece::orientations`: the 24 candidates, deduplicated by canonical
bitmask (keeping first occurrences, as `itertools::unique`). -/
def Piece.orientations (pc : Piece) : List Orientation :=
  uniqueBy canonicalMask (orientationCandidates pc.base)

/-- `Puzzle::unique_placements`: for every translation offset in
`0..(dim−bounds)` per axis (x outer, y middle, z inner), the mask of the
translated orientation. -/
def uniquePlacements (ori : Orientation) (dim : Coord) : List Nat :=
  let bounds := orientationBounds ori
  (List.range (dim.x - bounds.x).toNat).flatMap fun (xo : Nat) =>
    (List.range (dim.y - bounds.y).toNat).flatMap fun (yo : Nat) =>
      (List.range (dim.z - bounds.z).toNat).map fun (zo : Nat) =>
        fromOrientation (translateOri ⟨(xo : Int), (yo : Int), (zo : Int)⟩ ori) dim

/-- `Puzzle::piece_placements`: concatenation of `unique_placements` over the
piece's unique orientations. -/
def piecePlacements (pc : Piece) (dim : Coord) : List Nat :=
  pc.orientations.flatMap fun o => uniquePlacements o dim

/-- `Puzzle::full`: set the bit of every cell of the volume. -/
def fullMask (dim : Coord) : Nat :=
  (List.range dim.x.toNat).foldl (fun acc (x : Nat) =>
    (List.range dim.y.toNat).foldl (fun acc (y : Nat) =>
      (List.range dim.z.toNat).foldl (fun acc (z : Nat) =>
        acc ||| 2 ^ ((z : Int) * dim.y * dim.x + (y : Int) * dim.x + (x : Int)).toNat) acc) acc) 0

/-- `Puzzle` (src/puzzle.rs); the display field `name` is omitted. -/
structure Puzzle where
  pieces : List Piece
  dim : Coord
  full : Nat
deriving DecidableEq, Repr

/-- `puzzle.pieces[i]` — Rust panics out of range; theorems carry in-range
hypotheses, the default is inert. -/
def getPiece (p : Puzzle) (i : Nat) : Piece :=
  p.pieces.getD i ⟨[], []⟩

/-- Nearest-integer cube root: the model of
`(blocks as f64).cbrt().round() as usize` in `Puzzle::from_csv`
(the least `k` with `8·n < (2k+1)³`, i.e. `k − ½ ≤ ∛n < k + ½`). -/
def roundCbrt (n : Nat) : Nat :=
  ((List.range (n + 1)).find? fun k => 8 * n < (2 * k + 1) ^ 3).getD n

/-- The model-building tail of `Puzzle::from_csv`, after the CSV rows have
been parsed into base shapes: sum the cells, infer a cubic dimension from the
rounded cube root, compute every piece's placements and the full mask.
The `Except` layer mirrors the `io::Result` return type; no validation of
the cell total is performed — the only `Err` sources in the Rust code are
file I/O and CSV record errors, which precede this tail. -/
def fromRecords (bases : List Orientation) : Except String Puzzle :=
  let blocks := (bases.map List.length).sum
  let d := roundCbrt blocks
  let dim : Coord := ⟨(d : Int), (d : Int), (d : Int)⟩
  let pieces := bases.map fun b => { base := b, placements := piecePlacements ⟨b, []⟩ dim }
  .ok { pieces := pieces, dim := dim, full := fullMask dim }

/-- `Arrangement` (src/puzzle.rs): occupancy mask plus the ordered list of
committed `(piece index, placement)` pairs. -/
structure Arrangement where
  occupied : Nat
  placements : List (Nat × Nat)
deriving DecidableEq, Repr

/-- `Arrangement::new`. -/
def Arrangement.new : Arrangement :=
  ⟨0, []⟩

/-- `Arrangement::push`: OR the placement into the occupancy, append the pair. -/
def Arrangement.push (a : Arrangement) (piece mask : Nat) : Arrangement :=
  ⟨a.occupied ||| mask, a.placements ++ [(piece, mask)]⟩

/-- `Arrangement::pop`: remove the last committed pair (if any) and XOR its
mask out of the occupancy.  Returns the new state and the popped pair. -/
def Arrangement.pop (a : Arrangement) : Arrangement × Option (Nat × Nat) :=
  match a.placements.getLast? with
  | some pm => (⟨a.occupied ^^^ pm.2, a.placements.dropLast⟩, some pm)
  | none => (a, none)

/-- One iteration of the inner loop of `Solver::has_full_coverage`: once the
early `return true` has fired the state is frozen (`acc.2`); otherwise a
placement disjoint from `tmp` is unioned into the coverage and compared with
`full`. -/
def coverStep (full tmp : Nat) (acc : Nat × Bool) (pl : Nat) : Nat × Bool :=
  if acc.2 then acc
  else if tmp &&& pl = 0 then (acc.1 ||| pl, acc.1 ||| pl == full)
  else acc

/-- `Solver::has_full_coverage`: greedily union every placement (of every
listed piece) that does not intersect `tmp` into a running coverage,
returning `true` as soon as the coverage reaches `full` (the frozen `Bool`
component models the early `return true`), else test coverage against `full`
at the end. -/
def hasFullCoverage (p : Puzzle) (tmp : Nat) (pieces : List Nat) : Bool :=
  let res := pieces.foldl (fun acc pid =>
    (getPiece p pid).placements.foldl (coverStep p.full tmp) acc) ((tmp, false) : Nat × Bool)
  res.2 || (res.1 == p.full)

/-- `Solver::can_pieces_fit`, exactly as written in the source: return
`false` as soon as some listed piece has *all* of its placements not
intersecting `tmp`. -/
def canPiecesFit (p : Puzzle) (tmp : Nat) (pieces : List Nat) : Bool :=
  pieces.all fun pid =>
    !((getPiece p pid).placements.all fun pl => tmp &&& pl == 0)

/-- The scan loop of `Solver::new_cube`: advance from `cube` while the bit is
occupied.  The explicit fuel only bounds the loop; `occ + 1` steps always
suffice to find an unset bit (`newCube_not_occupied`). -/
def newCubeAux (occ : Nat) : Nat → Nat → Nat
  | 0, cube => cube
  | fuel + 1, cube => if occ.testBit cube then newCubeAux occ fuel (cube + 1) else cube

/-- `Solver::new_cube`: the first cell index at or after `prev` whose bit is
unset in the occupancy. -/
def newCube (occ prev : Nat) : Nat :=
  newCubeAux occ (occ + 1) prev

/-- The solver state the recursion threads besides the `Arrangement`:
the `explored` counter and the accumulated solutions (timer and verbosity
are display-only). -/
structure SolverState where
  explored : Nat
  solutions : List (List (Nat × Nat))
deriving DecidableEq, Repr

/-- `Solver::solve_board`.  The structure mirrors the Rust method: bump
`explored`; if no pieces remain, record the arrangement's placement list
(`add_solution`); otherwise find the next empty cell, and for every
remaining piece and every one of its placements that is disjoint from the
occupancy, covers the target cell, and passes `has_full_coverage` and
`can_pieces_fit` against the hypothetical board, push, recurse, pop.
The fuel argument only forces termination: each recursive call removes one
piece, so `remaining.length + 1` fuel (`solveBoard`) never runs out. -/
def solveBoardFuel (p : Puzzle) :
    Nat → Arrangement → Nat → List Nat → SolverState → Arrangement × SolverState
  | 0, arr, _, _, st => (arr, st)
  | fuel + 1, arr, prev, remaining, st =>
    let st1 : SolverState := ⟨st.explored + 1, st.solutions⟩
    if remaining = [] then
      (arr, ⟨st1.explored, st1.solutions ++ [arr.placements]⟩)
    else
      let cube := newCube arr.occupied prev
      remaining.enum.foldl (fun acc ip =>
        let other := remaining.eraseIdx ip.1
        (getPiece p ip.2).placements.foldl (fun acc2 placement =>
          if acc2.1.occupied &&& placement = 0 ∧ placement &&& 2 ^ cube ≠ 0 ∧
              hasFullCoverage p (acc2.1.occupied ||| placement) other = true ∧
              canPiecesFit p (acc2.1.occupied ||| placement) other = true then
            let r := solveBoardFuel p fuel (acc2.1.push ip.2 placement) cube other acc2.2
            (r.1.pop.1, r.2)
          else acc2) acc) (arr, st1)

/-- `Solver::solve_board` with sufficient fuel. -/
def solveBoard (p : Puzzle) (arr : Arrangement) (prev : Nat) (remaining : List Nat)
    (st : SolverState) : Arrangement × SolverState :=
  solveBoardFuel p (remaining.length + 1) arr prev remaining st

/-! ### Derived notions used to state the properties -/

/-- The set of bit positions set in a mask (every set bit of `n` is `< n`). -/
def bitsOf (n : Nat) : Finset Nat :=
  (Finset.range n).filter fun i => n.testBit i

/-- Number of set bits (cell count of a board). -/
def countBits (n : Nat) : Nat :=
  (bitsOf n).card

/-- Union of the committed placement masks of an arrangement / solution. -/
def unionMasks (l : List (Nat × Nat)) : Nat :=
  l.foldl (fun a pm => a ||| pm.2) 0

/-- Union of a list of masks. -/
def orMasks (l : List Nat) : Nat :=
  l.foldl (· ||| ·) 0

/-- The coverage `has_full_coverage` computes, without the early return:
union into `c` every placement of `L` that does not intersect `tmp`. -/
def pureCover (tmp c : Nat) (L : List Nat) : Nat :=
  L.foldl (fun acc pl => if tmp &&& pl = 0 then acc ||| pl else acc) c

/-- One `Arrangement` operation: a `push piece placement` or a `pop`. -/
inductive ArrOp where
  | pushOp (piece mask : Nat)
  | popOp
deriving DecidableEq, Repr

/-- Run a sequence of push/pop operations on an arrangement. -/
def runOps (a : Arrangement) : List ArrOp → Arrangement
  | [] => a
  | ArrOp.pushOp p m :: ops => runOps (a.push p m) ops
  | ArrOp.popOp :: ops => runOps a.pop.1 ops

/-- A sequence of operations is safe when every push's placement is disjoint
from the occupancy at the time of the push (which the solver's
`!occupied.intersects(placement)` guard guarantees). -/
def SafeOps (a : Arrangement) : List ArrOp → Prop
  | [] => True
  | ArrOp.pushOp p m :: ops => a.occupied &&& m = 0 ∧ SafeOps (a.push p m) ops
  | ArrOp.popOp :: ops => SafeOps a.pop.1 ops

/-- The `Arrangement` invariant of the spec: occupancy is the union of the
committed placements and no two committed placements share a bit. -/
def ArrInv (a : Arrangement) : Prop :=
  a.occupied = unionMasks a.placements ∧
  List.Pairwise (fun u v => u.2 &&& v.2 = 0) a.placements

/-- An exact cover: one placement for every piece index (each exactly once),
pairwise-disjoint masks, union equal to the full mask. -/
def IsExactCover (p : Puzzle) (sol : List (Nat × Nat)) : Prop :=
  (sol.map Prod.fst).Perm (List.range p.pieces.length) ∧
  List.Pairwise (fun u v => u.2 &&& v.2 = 0) sol ∧
  unionMasks sol = p.full

/-- Entry invariant of `solve_board` for the committed part: occupancy is the
disjoint union of committed placements, each committed pair names a real
piece and one of its placements. -/
def GoodArr (p : Puzzle) (arr : Arrangement) : Prop :=
  ArrInv arr ∧
  ∀ pm ∈ arr.placements, pm.1 < p.pieces.length ∧ pm.2 ∈ (getPiece p pm.1).placements

/-- Every placement of every piece lies inside the full mask and has exactly
the piece's base cell count of set bits. -/
def PlacementsOK (p : Puzzle) : Prop :=
  ∀ i < p.pieces.length, ∀ pl ∈ (getPiece p i).placements,
    pl ||| p.full = p.full ∧ countBits pl = (getPiece p i).base.length

/-- The claim's precondition: the pieces' total cell count equals the
volume's cell count. -/
def TotalOK (p : Puzzle) : Prop :=
  countBits p.full =
    ((List.range p.pieces.length).map fun i => (getPiece p i).base.length).sum

/-- The committed piece indices together with the remaining list enumerate
every piece exactly once. -/
def Inventory (p : Puzzle) (arr : Arrangement) (remaining : List Nat) : Prop :=
  (arr.placements.map Prod.fst ++ remaining).Perm (List.range p.pieces.length)

instance (p : Puzzle) : Decidable (PlacementsOK p) := by
  unfold PlacementsOK
  infer_instance

instance (p : Puzzle) : Decidable (TotalOK p) := by
  unfold TotalOK
  infer_instance

instance (p : Puzzle) (arr : Arrangement) (remaining : List Nat) :
    Decidable (Inventory p arr remaining) := by
  unfold Inventory
  infer_instance

/-- `n` is a perfect cube. -/
def isPerfectCube (n : Nat) : Prop :=
  ∃ k : Nat, k ^ 3 = n

/-- Spec-side notion for the placement generator ("for each translation
offset whose translated bounding box fits within volume bounds"): the
translated bounding box of the shape lies inside `[0, dim)` on every axis. -/
def specFits (ori : Orientation) (dim : Coord) (off : Coord) : Prop :=
  0 ≤ minOn (·.x) ori + off.x ∧ 0 ≤ minOn (·.y) ori + off.y ∧ 0 ≤ minOn (·.z) ori + off.z ∧
  maxOn (·.x) ori + off.x < dim.x ∧ maxOn (·.y) ori + off.y < dim.y ∧
  maxOn (·.z) ori + off.z < dim.z

instance (ori : Orientation) (dim off : Coord) : Decidable (specFits ori dim off) := by
  unfold specFits
  infer_instance

/-- Spec-side enumeration of the legal translation offsets, in the same
x-outer / y-middle / z-inner order the generator uses. -/
def specOffsets (ori : Orientation) (dim : Coord) : List Coord :=
  ((List.range dim.x.toNat).flatMap fun (xo : Nat) =>
    (List.range dim.y.toNat).flatMap fun (yo : Nat) =>
      (List.range dim.z.toNat).map fun (zo : Nat) =>
        (⟨(xo : Int), (yo : Int), (zo : Int)⟩ : Coord)).filter
    fun off => decide (specFits ori dim off)

/-- A 3×3 integer matrix: the linear part of a rotation acting on `Coord`. -/
structure M3 where
  a11 : Int
  a12 : Int
  a13 : Int
  a21 : Int
  a22 : Int
  a23 : Int
  a31 : Int
  a32 : Int
  a33 : Int
deriving DecidableEq, Repr

/-- Matrix action on a coordinate. -/
def M3.apply (m : M3) (c : Coord) : Coord :=
  ⟨m.a11 * c.x + m.a12 * c.y + m.a13 * c.z,
   m.a21 * c.x + m.a22 * c.y + m.a23 * c.z,
   m.a31 * c.x + m.a32 * c.y + m.a33 * c.z⟩

/-- Matrix product (`(m.mul n).apply = m.apply ∘ n.apply`). -/
def M3.mul (m n : M3) : M3 :=
  ⟨m.a11 * n.a11 + m.a12 * n.a21 + m.a13 * n.a31,
   m.a11 * n.a12 + m.a12 * n.a22 + m.a13 * n.a32,
   m.a11 * n.a13 + m.a12 * n.a23 + m.a13 * n.a33,
   m.a21 * n.a11 + m.a22 * n.a21 + m.a23 * n.a31,
   m.a21 * n.a12 + m.a22 * n.a22 + m.a23 * n.a32,
   m.a21 * n.a13 + m.a22 * n.a23 + m.a23 * n.a33,
   m.a31 * n.a11 + m.a32 * n.a21 + m.a33 * n.a31,
   m.a31 * n.a12 + m.a32 * n.a22 + m.a33 * n.a32,
   m.a31 * n.a13 + m.a32 * n.a23 + m.a33 * n.a33⟩

/-- Identity matrix. -/
def mIdent : M3 :=
  ⟨1, 0, 0, 0, 1, 0, 0, 0, 1⟩

/-- `rotate_x` as a matrix: `(x,y,z) ↦ (x,−z,y)`. -/
def mX : M3 :=
  ⟨1, 0, 0, 0, 0, -1, 0, 1, 0⟩

/-- `rotate_y` as a matrix: `(x,y,z) ↦ (z,y,−x)`. -/
def mY : M3 :=
  ⟨0, 0, 1, 0, 1, 0, -1, 0, 0⟩

/-- `rotate_z` as a matrix: `(x,y,z) ↦ (−y,x,z)`. -/
def mZ : M3 :=
  ⟨0, -1, 0, 1, 0, 0, 0, 0, 1⟩

/-- The 24 rotation words generated by `Piece::orientations`, in generation
order: for each x-rotated frame `mX^i` (`i = 0..3`) the six words
`id, y, y³, z, z², z³` composed with it.  `rotGroup_mul_closed`,
`rotGroup_nodup`, `rotGroup_length` and `mIdent_mem_rotGroup` below verify
that this list is exactly the 24-element rotation group generated by the
three axis rotations. -/
def rotGroup : List M3 :=
  [mIdent, mX, mX.mul mX, mX.mul (mX.mul mX)].flatMap fun xi =>
    [xi, mY.mul xi, (mY.mul (mY.mul mY)).mul xi,
     mZ.mul xi, (mZ.mul mZ).mul xi, (mZ.mul (mZ.mul mZ)).mul xi]

/-- A shape is normalised when its per-axis minimum is zero (equivalently,
`normaliseOri` fixes it). -/
def IsNormalised (o : Orientation) : Prop :=
  minOn (·.x) o = 0 ∧ minOn (·.y) o = 0 ∧ minOn (·.z) o = 0

instance (o : Orientation) : Decidable (IsNormalised o) := by
  unfold IsNormalised
  infer_instance

/-- All cells lie in the `4×4×4` reference frame used by the
`Hash`/`PartialEq` implementation of `Orientation`. -/
def InBox4 (o : Orientation) : Prop :=
  ∀ c ∈ o, 0 ≤ c.x ∧ c.x < 4 ∧ 0 ≤ c.y ∧ c.y < 4 ∧ 0 ≤ c.z ∧ c.z < 4

instance (o : Orientation) : Decidable (InBox4 o) := by
  unfold InBox4
  infer_instance

/-! ### Bit-level toolkit -/

theorem testBit_lt_self {n i : Nat} (h : n.testBit i = true) : i < n := by
  have h2 : 2 ^ i ≤ n := by
    by_contra hlt
    push_neg at hlt
    rw [Nat.testBit_lt_two_pow hlt] at h
    exact Bool.false_ne_true h
  exact lt_of_lt_of_le (Nat.lt_two_pow i) h2

theorem mem_bitsOf {n i : Nat} : i ∈ bitsOf n ↔ n.testBit i = true := by
  unfold bitsOf
  simp only [Finset.mem_filter, Finset.mem_range]
  exact ⟨fun h => h.2, fun h => ⟨testBit_lt_self h, h⟩⟩

theorem bitsOf_lor (a b : Nat) : bitsOf (a ||| b) = bitsOf a ∪ bitsOf b := by
  ext i
  simp [mem_bitsOf, Nat.testBit_or]

theorem bitsOf_inj {a b : Nat} (h : bitsOf a = bitsOf b) : a = b := by
  apply Nat.eq_of_testBit_eq
  intro i
  have := Finset.ext_iff.mp h i
  simp only [mem_bitsOf] at this
  cases ha : a.testBit i <;> cases hb : b.testBit i <;> simp_all

theorem land_eq_zero_iff {a b : Nat} : a &&& b = 0 ↔ Disjoint (bitsOf a) (bitsOf b) := by
  constructor
  · intro h
    rw [Finset.disjoint_left]
    intro i hia hib
    have hz : (a &&& b).testBit i = true := by
      rw [Nat.testBit_and, mem_bitsOf.mp hia, mem_bitsOf.mp hib]
      rfl
    rw [h, Nat.zero_testBit] at hz
    exact Bool.false_ne_true hz
  · intro h
    apply Nat.eq_of_testBit_eq
    intro i
    rw [Nat.testBit_and, Nat.zero_testBit]
    cases ha : a.testBit i with
    | false => rfl
    | true =>
      cases hb : b.testBit i with
      | false => rfl
      | true =>
        exact absurd (Finset.disjoint_left.mp h (mem_bitsOf.mpr ha) (mem_bitsOf.mpr hb))
          (fun c => c)

theorem lor_eq_right_iff {a b : Nat} : a ||| b = b ↔ bitsOf a ⊆ bitsOf b := by
  constructor
  · intro h i hi
    rw [mem_bitsOf]
    have : (a ||| b).testBit i = b.testBit i := by rw [h]
    rw [Nat.testBit_or, mem_bitsOf.mp hi, Bool.true_or] at this
    exact this.symm
  · intro h
    apply bitsOf_inj
    rw [bitsOf_lor]
    exact Finset.union_eq_right.mpr h

theorem eq_of_lor_eq_of_count_le {a b : Nat} (h : a ||| b = b)
    (hc : countBits b ≤ countBits a) : a = b := by
  apply bitsOf_inj
  exact Finset.eq_of_subset_of_card_le (lor_eq_right_iff.mp h) hc

theorem lor_xor_cancel {a m : Nat} (h : a &&& m = 0) : (a ||| m) ^^^ m = a := by
  apply Nat.eq_of_testBit_eq
  intro i
  have hz : (a &&& m).testBit i = false := by rw [h, Nat.zero_testBit]
  rw [Nat.testBit_and] at hz
  rw [Nat.testBit_xor, Nat.testBit_or]
  cases ha : a.testBit i <;> cases hm : m.testBit i <;> simp_all

theorem land_lor_distrib (a b m : Nat) :
    (a ||| b) &&& m = (a &&& m) ||| (b &&& m) := by
  apply Nat.eq_of_testBit_eq
  intro i
  simp only [Nat.testBit_and, Nat.testBit_or]
  cases a.testBit i <;> cases b.testBit i <;> cases m.testBit i <;> rfl

theorem land_zero_of_sub {a b m : Nat} (hsub : a ||| b = b) (h : b &&& m = 0) :
    a &&& m = 0 := by
  rw [land_eq_zero_iff] at h ⊢
  exact Finset.disjoint_of_subset_left (lor_eq_right_iff.mp hsub) h

theorem countBits_lor_of_disjoint {a b : Nat} (h : a &&& b = 0) :
    countBits (a ||| b) = countBits a + countBits b := by
  unfold countBits
  rw [bitsOf_lor]
  exact Finset.card_union_of_disjoint (land_eq_zero_iff.mp h)

/-! ### `unionMasks` facts -/

theorem foldl_lor_init (l : List (Nat × Nat)) :
    ∀ a : Nat, l.foldl (fun acc pm => acc ||| pm.2) a = a ||| unionMasks l := by
  induction l with
  | nil => intro a; simp [unionMasks]
  | cons x t ih =>
    intro a
    show List.foldl _ (a ||| x.2) t = _
    rw [ih (a ||| x.2)]
    have h2 : unionMasks (x :: t) = x.2 ||| unionMasks t := by
      show List.foldl _ (0 ||| x.2) t = _
      rw [ih (0 ||| x.2), Nat.zero_or]
    rw [h2, Nat.lor_assoc]

theorem unionMasks_concat (l : List (Nat × Nat)) (x : Nat × Nat) :
    unionMasks (l ++ [x]) = unionMasks l ||| x.2 := by
  unfold unionMasks
  rw [List.foldl_append]
  rfl

theorem mem_sub_unionMasks {l : List (Nat × Nat)} {pm : Nat × Nat} (h : pm ∈ l) :
    pm.2 ||| unionMasks l = unionMasks l := by
  induction l with
  | nil => cases h
  | cons x t ih =>
    have hcons : unionMasks (x :: t) = x.2 ||| unionMasks t := by
      show List.foldl _ (0 ||| x.2) t = _
      rw [foldl_lor_init t (0 ||| x.2), Nat.zero_or]
    rcases List.mem_cons.mp h with rfl | hmem
    · rw [hcons, ← Nat.lor_assoc, Nat.or_self]
    · rw [hcons, ← Nat.lor_assoc, Nat.lor_comm pm.2 x.2, Nat.lor_assoc, ih hmem]

theorem unionMasks_land_zero {l : List (Nat × Nat)} {m : Nat}
    (h : ∀ pm ∈ l, pm.2 &&& m = 0) : unionMasks l &&& m = 0 := by
  induction l with
  | nil => simp [unionMasks]
  | cons x t ih =>
    have hcons : unionMasks (x :: t) = x.2 ||| unionMasks t := by
      show List.foldl _ (0 ||| x.2) t = _
      rw [foldl_lor_init t (0 ||| x.2), Nat.zero_or]
    rw [hcons, land_lor_distrib, h x (List.mem_cons_self x t),
      ih (fun pm hpm => h pm (List.mem_cons_of_mem x hpm)), Nat.or_self]

theorem countBits_unionMasks {l : List (Nat × Nat)}
    (h : List.Pairwise (fun u v => u.2 &&& v.2 = 0) l) :
    countBits (unionMasks l) = (l.map fun pm => countBits pm.2).sum := by
  induction l with
  | nil => simp [unionMasks, countBits, bitsOf]
  | cons x t ih =>
    have hcons : unionMasks (x :: t) = x.2 ||| unionMasks t := by
      show List.foldl _ (0 ||| x.2) t = _
      rw [foldl_lor_init t (0 ||| x.2), Nat.zero_or]
    rcases List.pairwise_cons.mp h with ⟨hx, ht⟩
    have hdisj : x.2 &&& unionMasks t = 0 := by
      rw [Nat.land_comm]
      exact unionMasks_land_zero fun pm hpm => by rw [Nat.land_comm]; exact hx pm hpm
    rw [hcons, countBits_lor_of_disjoint hdisj, List.map_cons, List.sum_cons, ih ht]

/-! ### Arrangement push/pop -/

theorem push_pop {a : Arrangement} {p m : Nat} (h : a.occupied &&& m = 0) :
    ((a.push p m).pop).1 = a := by
  unfold Arrangement.push Arrangement.pop
  rw [List.getLast?_concat]
  simp only
  rw [List.dropLast_concat, lor_xor_cancel h]

theorem ArrInv_push {a : Arrangement} {p m : Nat} (hinv : ArrInv a)
    (h : a.occupied &&& m = 0) : ArrInv (a.push p m) := by
  obtain ⟨hocc, hpair⟩ := hinv
  constructor
  · show a.occupied ||| m = unionMasks (a.placements ++ [(p, m)])
    rw [unionMasks_concat, hocc]
  · show List.Pairwise _ (a.placements ++ [(p, m)])
    rw [List.pairwise_append]
    refine ⟨hpair, List.pairwise_singleton _ _, ?_⟩
    intro u hu v hv
    rw [List.mem_singleton] at hv
    subst hv
    show u.2 &&& m = 0
    exact land_zero_of_sub (mem_sub_unionMasks hu) (hocc ▸ h)

theorem ArrInv_pop {a : Arrangement} (hinv : ArrInv a) : ArrInv a.pop.1 := by
  obtain ⟨occ, pl⟩ := a
  obtain ⟨hocc, hpair⟩ := hinv
  rcases List.eq_nil_or_concat pl with rfl | ⟨l, x, rfl⟩
  · exact ⟨hocc, hpair⟩
  · have hocc' : occ = unionMasks (l ++ [x]) := by
      have h0 : occ = unionMasks (l.concat x) := hocc
      rwa [List.concat_eq_append] at h0
    have hpair' : List.Pairwise (fun u v => u.2 &&& v.2 = 0) (l ++ [x]) := by
      have h0 : List.Pairwise (fun u v => u.2 &&& v.2 = 0) (l.concat x) := hpair
      rwa [List.concat_eq_append] at h0
    show ArrInv (Arrangement.pop ⟨occ, l.concat x⟩).1
    rw [List.concat_eq_append]
    simp only [Arrangement.pop, List.getLast?_concat, List.dropLast_concat]
    have hlast : ∀ pm ∈ l, pm.2 &&& x.2 = 0 := by
      intro pm hpm
      exact (List.pairwise_append.mp hpair').2.2 pm hpm x (List.mem_singleton_self x)
    constructor
    · show occ ^^^ x.2 = unionMasks l
      have h1 : occ = unionMasks l ||| x.2 := by
        rw [hocc', unionMasks_concat]
      rw [h1, lor_xor_cancel (unionMasks_land_zero hlast)]
    · exact (List.pairwise_append.mp hpair').1

/-! ### `fromOrientation` bit characterization -/

theorem foldl_lor_pow_testBit (f : Coord → Nat) (o : List Coord) :
    ∀ (a i : Nat),
      ((o.foldl (fun mask c => mask ||| 2 ^ f c) a).testBit i = true) ↔
        (a.testBit i = true ∨ ∃ c ∈ o, f c = i) := by
  induction o with
  | nil => intro a i; simp
  | cons c t ih =>
    intro a i
    rw [List.foldl_cons, ih]
    simp only [Nat.testBit_or, Bool.or_eq_true, Nat.testBit_two_pow,
      decide_eq_true_eq, List.mem_cons]
    constructor
    · rintro ((h | h) | ⟨d, hd, hdi⟩)
      · exact Or.inl h
      · exact Or.inr ⟨c, Or.inl rfl, h⟩
      · exact Or.inr ⟨d, Or.inr hd, hdi⟩
    · rintro (h | ⟨d, (rfl | hd), hdi⟩)
      · exact Or.inl (Or.inl h)
      · exact Or.inl (Or.inr hdi)
      · exact Or.inr ⟨d, hd, hdi⟩

theorem testBit_fromOrientation (o : Orientation) (dim : Coord) (i : Nat) :
    ((fromOrientation o dim).testBit i = true) ↔
      ∃ c ∈ o, (c.z * dim.y * dim.x + c.y * dim.x + c.x).toNat = i := by
  unfold fromOrientation
  rw [foldl_lor_pow_testBit (fun c => (c.z * dim.y * dim.x + c.y * dim.x + c.x).toNat) o 0 i]
  simp [Nat.zero_testBit]

theorem canonicalMask_congr {o1 o2 : Orientation} (h : ∀ c, c ∈ o1 ↔ c ∈ o2) :
    canonicalMask o1 = canonicalMask o2 := by
  apply Nat.eq_of_testBit_eq
  intro i
  have e1 := testBit_fromOrientation o1 ⟨4, 4, 4⟩ i
  have e2 := testBit_fromOrientation o2 ⟨4, 4, 4⟩ i
  unfold canonicalMask
  cases hb : (fromOrientation o1 ⟨4, 4, 4⟩).testBit i with
  | true =>
    obtain ⟨c, hc, hci⟩ := e1.mp hb
    exact (e2.mpr ⟨c, (h c).mp hc, hci⟩).symm
  | false =>
    cases hb2 : (fromOrientation o2 ⟨4, 4, 4⟩).testBit i with
    | true =>
      obtain ⟨c, hc, hci⟩ := e2.mp hb2
      have h1 := e1.mpr ⟨c, (h c).mpr hc, hci⟩
      rw [h1] at hb
      exact absurd hb (by decide)
    | false => rfl

theorem canonicalMask_mem_of_eq {o1 o2 : Orientation} (h1 : InBox4 o1) (h2 : InBox4 o2)
    (heq : canonicalMask o1 = canonicalMask o2) : ∀ c ∈ o1, c ∈ o2 := by
  intro c hc
  have hb : (canonicalMask o1).testBit ((c.z * 4 * 4 + c.y * 4 + c.x).toNat) = true := by
    unfold canonicalMask
    rw [testBit_fromOrientation]
    exact ⟨c, hc, rfl⟩
  rw [heq] at hb
  unfold canonicalMask at hb
  rw [testBit_fromOrientation] at hb
  obtain ⟨d, hd, hdi⟩ := hb
  have hcb := h1 c hc
  have hdb := h2 d hd
  have hdc : d = c := by
    obtain ⟨cx, cy, cz⟩ := c
    obtain ⟨dx, dy, dz⟩ := d
    simp only at hcb hdb hdi
    rw [Coord.mk.injEq]
    refine ⟨?_, ?_, ?_⟩ <;> omega
  rw [← hdc]
  exact hd

/-! ### Claim theorems: C1, C3, C9, C10 -/

/-- C1 (code bug): `can_pieces_fit` is inverted.  The first conjunct shows
what the code actually computes: `true` iff every listed piece has at least
one placement that *does* intersect `tmp` — the negation-inside-`all` of the
intended test.  The remaining conjuncts exhibit the divergence on a concrete
puzzle: the sole piece has a placement (`1`) disjoint from `tmp = 0`, so the
claim requires `true`, yet the code returns `false`. -/
theorem c1_canPiecesFit_inverted :
    (∀ (p : Puzzle) (tmp : Nat) (pieces : List Nat),
        canPiecesFit p tmp pieces = true ↔
          ∀ pid ∈ pieces, ∃ pl ∈ (getPiece p pid).placements, tmp &&& pl ≠ 0) ∧
    canPiecesFit ⟨[⟨[⟨0, 0, 0⟩], [1]⟩], ⟨1, 1, 1⟩, 1⟩ 0 [0] = false ∧
    ∃ pl ∈ (getPiece ⟨[⟨[⟨0, 0, 0⟩], [1]⟩], ⟨1, 1, 1⟩, 1⟩ 0).placements,
      (0 : Nat) &&& pl = 0 := by
  refine ⟨?_, by decide, by decide⟩
  intro p tmp pieces
  unfold canPiecesFit
  rw [List.all_eq_true]
  constructor
  · intro h pid hpid
    have := h pid hpid
    rw [Bool.not_eq_true', List.all_eq_false] at this
    obtain ⟨pl, hpl, hne⟩ := this
    refine ⟨pl, hpl, ?_⟩
    intro hz
    rw [hz] at hne
    simp at hne
  · intro h pid hpid
    obtain ⟨pl, hpl, hne⟩ := h pid hpid
    rw [Bool.not_eq_true', List.all_eq_false]
    refine ⟨pl, hpl, ?_⟩
    simpa using hne

/-- C3 counterexample: for an *arbitrary* operation sequence the claimed
invariant is false.  Pushing the same placement mask `1` twice leaves two
committed placements that share bit `0`, and the subsequent pop (XOR) does
not restore the pre-push occupancy (`(1 ||| 1) ^^^ 1 = 0 ≠ 1`). -/
theorem c3_counterexample :
    ((Arrangement.new.push 0 1).push 1 1).placements = [(0, 1), (1, 1)] ∧
    (1 : Nat) &&& 1 ≠ 0 ∧
    (((Arrangement.new.push 0 1).push 1 1).pop).1 ≠ Arrangement.new.push 0 1 := by
  decide

/-- C3 (amended): after any sequence of push/pop operations in which every
pushed placement is disjoint from the occupancy at the time of its push (as
the solver's guard guarantees), the occupancy equals the union of the
committed placements, no two committed placements share a bit, and a further
disjoint push followed by a pop restores the state bit-for-bit. -/
theorem c3_push_pop_invariant :
    ∀ (ops : List ArrOp) (a : Arrangement), ArrInv a → SafeOps a ops →
      ArrInv (runOps a ops) ∧
      ∀ p m : Nat, (runOps a ops).occupied &&& m = 0 →
        (((runOps a ops).push p m).pop).1 = runOps a ops := by
  intro ops
  induction ops with
  | nil => exact fun a h _ => ⟨h, fun p m hm => push_pop hm⟩
  | cons op t ih =>
    intro a h hs
    cases op with
    | pushOp p m =>
      obtain ⟨hd, hrest⟩ := hs
      exact ih (a.push p m) (ArrInv_push h hd) hrest
    | popOp => exact ih a.pop.1 (ArrInv_pop h) hs

theorem c3_witness :
    ArrInv (runOps Arrangement.new [ArrOp.pushOp 0 1, ArrOp.pushOp 1 2, ArrOp.popOp]) :=
  (c3_push_pop_invariant [ArrOp.pushOp 0 1, ArrOp.pushOp 1 2, ArrOp.popOp]
    Arrangement.new ⟨rfl, List.Pairwise.nil⟩ ⟨by decide, by decide, trivial⟩).1

/-- C9 counterexample: a two-cell piece set (total `2`, not a perfect cube)
is *not* rejected: the construction tail of `Puzzle::from_csv` returns `Ok`
(there is no volume-mismatch error path in the code). -/
theorem c9_counterexample :
    ¬ isPerfectCube 2 ∧ (fromRecords [[⟨0, 0, 0⟩, ⟨1, 0, 0⟩]]).isOk = true := by
  constructor
  · rintro ⟨k, hk⟩
    match k with
    | 0 => simp at hk
    | 1 => simp at hk
    | (k + 2) =>
      have h8 : 2 ^ 3 ≤ (k + 2) ^ 3 := Nat.pow_le_pow_left (by omega) 3
      omega
  · rfl

/-- C9 (amended): puzzle construction performs no cell-count validation.
For every list of (nonempty) base shapes it infers the cubic side as the
rounded cube root of the total and returns a puzzle; a non-perfect-cube
total is accepted, never rejected. -/
theorem c9_no_volume_validation (bases : List Orientation) (h : ∀ b ∈ bases, b ≠ []) :
    ∃ pz : Puzzle, fromRecords bases = Except.ok pz :=
  ⟨_, rfl⟩

theorem c9_witness :
    ∃ pz : Puzzle, fromRecords [[⟨0, 0, 0⟩, ⟨1, 0, 0⟩]] = Except.ok pz :=
  c9_no_volume_validation [[⟨0, 0, 0⟩, ⟨1, 0, 0⟩]] (by decide)

/-- C10 (confirmed): orientation equality compares bitmasks in the hardcoded
4×4×4 frame.  For orientations whose coordinates all lie in `0..3` this
coincides with occupying the same set of cells; but the geometrically
distinct one-cell shapes `[(4,0,0)]` and `[(0,1,0)]` collide on bit index
`4` and compare equal, so deduplication is sound only inside the 4×4×4 box. -/
theorem c10_orientation_eq_frame :
    (∀ o1 o2 : Orientation, InBox4 o1 → InBox4 o2 →
        (orientationEq o1 o2 = true ↔ o1.toFinset = o2.toFinset)) ∧
    orientationEq [⟨4, 0, 0⟩] [⟨0, 1, 0⟩] = true ∧
    ([⟨4, 0, 0⟩] : Orientation).toFinset ≠ ([⟨0, 1, 0⟩] : Orientation).toFinset := by
  refine ⟨?_, by decide, by decide⟩
  intro o1 o2 h1 h2
  unfold orientationEq
  rw [beq_iff_eq]
  constructor
  · intro heq
    ext c
    simp only [List.mem_toFinset]
    exact ⟨fun hc => canonicalMask_mem_of_eq h1 h2 heq c hc,
      fun hc => canonicalMask_mem_of_eq h2 h1 heq.symm c hc⟩
  · intro hset
    apply canonicalMask_congr
    intro c
    have := Finset.ext_iff.mp hset c
    simpa using this

theorem c10_witness :
    orientationEq [(⟨0, 0, 0⟩ : Coord)] [(⟨0, 0, 0⟩ : Coord)] = true :=
  ((c10_orientation_eq_frame.1 [⟨0, 0, 0⟩] [⟨0, 0, 0⟩] (by decide) (by decide)).mpr rfl)

/-! ### C4: `has_full_coverage` -/

theorem foldl_flatMap {α β σ : Type} (l : List α) (f : α → List β) (g : σ → β → σ) :
    ∀ init : σ,
      l.foldl (fun acc x => (f x).foldl g acc) init = (l.flatMap f).foldl g init := by
  induction l with
  | nil => intro init; rfl
  | cons x t ih =>
    intro init
    rw [List.flatMap_cons, List.foldl_append, List.foldl_cons, ih]

theorem foldl_or_init (l : List Nat) : ∀ a : Nat, l.foldl (· ||| ·) a = a ||| orMasks l := by
  induction l with
  | nil => intro a; simp [orMasks]
  | cons x t ih =>
    intro a
    show List.foldl _ (a ||| x) t = _
    rw [ih (a ||| x)]
    have h2 : orMasks (x :: t) = x ||| orMasks t := by
      show List.foldl _ (0 ||| x) t = _
      rw [ih (0 ||| x), Nat.zero_or]
    rw [h2, Nat.lor_assoc]

theorem pureCover_eq (tmp : Nat) (L : List Nat) :
    ∀ c : Nat, pureCover tmp c L = c ||| orMasks (L.filter fun pl => tmp &&& pl == 0) := by
  induction L with
  | nil => intro c; simp [pureCover, orMasks]
  | cons pl t ih =>
    intro c
    show pureCover tmp _ _ = _
    by_cases h : tmp &&& pl = 0
    · have hstep : pureCover tmp c (pl :: t) = pureCover tmp (c ||| pl) t := by
        unfold pureCover
        rw [List.foldl_cons, if_pos h]
      have hfil : (pl :: t).filter (fun q => tmp &&& q == 0) =
          pl :: t.filter (fun q => tmp &&& q == 0) := by
        rw [List.filter_cons_of_pos]
        exact beq_iff_eq.mpr h
      rw [hstep, ih, hfil]
      have horm : orMasks (pl :: t.filter fun q => tmp &&& q == 0) =
          pl ||| orMasks (t.filter fun q => tmp &&& q == 0) := by
        show List.foldl _ (0 ||| pl) _ = _
        rw [foldl_or_init, Nat.zero_or]
      rw [horm, Nat.lor_assoc]
    · have hstep : pureCover tmp c (pl :: t) = pureCover tmp c t := by
        unfold pureCover
        rw [List.foldl_cons, if_neg h]
      have hfil : (pl :: t).filter (fun q => tmp &&& q == 0) =
          t.filter (fun q => tmp &&& q == 0) := by
        rw [List.filter_cons_of_neg]
        simp [h]
      rw [hstep, ih, hfil]

theorem pureCover_of_full {full tmp : Nat} (L : List Nat)
    (hsub : ∀ pl ∈ L, tmp &&& pl = 0 → pl ||| full = full) :
    pureCover tmp full L = full := by
  induction L with
  | nil => rfl
  | cons pl t ih =>
    unfold pureCover
    rw [List.foldl_cons]
    by_cases h : tmp &&& pl = 0
    · rw [if_pos h]
      have : full ||| pl = full := by
        rw [Nat.lor_comm]
        exact hsub pl (List.mem_cons_self pl t) h
      rw [this]
      exact ih fun q hq => hsub q (List.mem_cons_of_mem pl hq)
    · rw [if_neg h]
      exact ih fun q hq => hsub q (List.mem_cons_of_mem pl hq)

theorem coverFold_frozen (full tmp : Nat) (L : List Nat) :
    ∀ acc : Nat × Bool, acc.2 = true → L.foldl (coverStep full tmp) acc = acc := by
  induction L with
  | nil => intro acc _; rfl
  | cons pl t ih =>
    intro acc hacc
    rw [List.foldl_cons]
    have hstep : coverStep full tmp acc pl = acc := by
      unfold coverStep
      rw [if_pos hacc]
    rw [hstep]
    exact ih acc hacc

theorem coverFold_true (full tmp : Nat) (L : List Nat)
    (hsub : ∀ pl ∈ L, tmp &&& pl = 0 → pl ||| full = full) :
    ∀ c : Nat, (L.foldl (coverStep full tmp) (c, false)).2 = true →
      pureCover tmp c L = full := by
  induction L with
  | nil => intro c h; exact absurd h Bool.false_ne_true
  | cons pl t ih =>
    intro c h
    have hsubt : ∀ q ∈ t, tmp &&& q = 0 → q ||| full = full :=
      fun q hq => hsub q (List.mem_cons_of_mem pl hq)
    rw [List.foldl_cons] at h
    have hpc : pureCover tmp c (pl :: t) =
        if tmp &&& pl = 0 then pureCover tmp (c ||| pl) t else pureCover tmp c t := by
      unfold pureCover
      rw [List.foldl_cons]
      by_cases hz : tmp &&& pl = 0
      · rw [if_pos hz, if_pos hz]
      · rw [if_neg hz, if_neg hz]
    by_cases hz : tmp &&& pl = 0
    · rw [hpc, if_pos hz]
      have hstep : coverStep full tmp (c, false) pl = (c ||| pl, c ||| pl == full) := by
        unfold coverStep
        rw [if_neg Bool.false_ne_true, if_pos hz]
      rw [hstep] at h
      by_cases hf : c ||| pl = full
      · rw [hf]
        exact pureCover_of_full t hsubt
      · have hb : (c ||| pl == full) = false := beq_eq_false_iff_ne.mpr hf
        rw [hb] at h
        exact ih hsubt (c ||| pl) h
    · rw [hpc, if_neg hz]
      have hstep : coverStep full tmp (c, false) pl = (c, false) := by
        unfold coverStep
        rw [if_neg Bool.false_ne_true, if_neg hz]
      rw [hstep] at h
      exact ih hsubt c h

theorem coverFold_false (full tmp : Nat) (L : List Nat) :
    ∀ c : Nat, (L.foldl (coverStep full tmp) (c, false)).2 = false →
      (L.foldl (coverStep full tmp) (c, false)).1 = pureCover tmp c L := by
  induction L with
  | nil => intro c _; rfl
  | cons pl t ih =>
    intro c h
    rw [List.foldl_cons] at h ⊢
    have hpc : pureCover tmp c (pl :: t) =
        if tmp &&& pl = 0 then pureCover tmp (c ||| pl) t else pureCover tmp c t := by
      unfold pureCover
      rw [List.foldl_cons]
      by_cases hz : tmp &&& pl = 0
      · rw [if_pos hz, if_pos hz]
      · rw [if_neg hz, if_neg hz]
    by_cases hz : tmp &&& pl = 0
    · have hstep : coverStep full tmp (c, false) pl = (c ||| pl, c ||| pl == full) := by
        unfold coverStep
        rw [if_neg Bool.false_ne_true, if_pos hz]
      rw [hstep] at h ⊢
      by_cases hf : c ||| pl = full
      · have hb : (c ||| pl == full) = true := beq_iff_eq.mpr hf
        rw [hb] at h
        rw [coverFold_frozen full tmp t (c ||| pl, true) rfl] at h
        exact absurd h (Bool.noConfusion : true = false → False)
      · have hb : (c ||| pl == full) = false := beq_eq_false_iff_ne.mpr hf
        rw [hb] at h ⊢
        rw [hpc, if_pos hz]
        exact ih (c ||| pl) h
    · have hstep : coverStep full tmp (c, false) pl = (c, false) := by
        unfold coverStep
        rw [if_neg Bool.false_ne_true, if_neg hz]
      rw [hstep] at h ⊢
      rw [hpc, if_neg hz]
      exact ih c h

/-- C4 (confirmed): `has_full_coverage(puzzle, tmp, pieces)` returns `true`
iff `tmp` unioned with every placement of every listed piece that does not
intersect `tmp` equals the `Full` mask; no mutual disjointness of those
placements is required.  The hypotheses record the operating domain: listed
indices are in range (Rust would panic otherwise) and generated placements
lie inside the full mask (true of every placement the generator produces,
and needed because the early `return true` tests a running prefix union). -/
theorem c4_hasFullCoverage_iff (p : Puzzle) (tmp : Nat) (pieces : List Nat)
    (hrange : ∀ pid ∈ pieces, pid < p.pieces.length)
    (hsub : ∀ pid ∈ pieces, ∀ pl ∈ (getPiece p pid).placements, pl ||| p.full = p.full) :
    (hasFullCoverage p tmp pieces = true ↔
      tmp ||| orMasks ((pieces.flatMap fun pid => (getPiece p pid).placements).filter
        fun pl => tmp &&& pl == 0) = p.full) := by
  have hbody : hasFullCoverage p tmp pieces =
      (((pieces.flatMap fun pid => (getPiece p pid).placements).foldl
          (coverStep p.full tmp) (tmp, false)).2
        || (((pieces.flatMap fun pid => (getPiece p pid).placements).foldl
          (coverStep p.full tmp) (tmp, false)).1 == p.full)) := by
    unfold hasFullCoverage
    rw [foldl_flatMap]
  set L := pieces.flatMap fun pid => (getPiece p pid).placements with hL
  have hsubL : ∀ pl ∈ L, tmp &&& pl = 0 → pl ||| p.full = p.full := by
    intro pl hpl _
    rw [hL, List.mem_flatMap] at hpl
    obtain ⟨pid, hpid, hplp⟩ := hpl
    exact hsub pid hpid pl hplp
  rw [hbody, ← pureCover_eq]
  constructor
  · intro h
    rw [Bool.or_eq_true, beq_iff_eq] at h
    cases hfl : (L.foldl (coverStep p.full tmp) (tmp, false)).2 with
    | true => exact coverFold_true p.full tmp L hsubL tmp hfl
    | false =>
      rcases h with hflag | hfin
      · rw [hfl] at hflag
        exact absurd hflag (by decide)
      · rw [← coverFold_false p.full tmp L tmp hfl]
        exact hfin
  · intro h
    rw [Bool.or_eq_true, beq_iff_eq]
    cases hfl : (L.foldl (coverStep p.full tmp) (tmp, false)).2 with
    | true => exact Or.inl rfl
    | false =>
      refine Or.inr ?_
      rw [coverFold_false p.full tmp L tmp hfl]
      exact h

theorem c4_witness :
    hasFullCoverage ⟨[⟨[⟨0, 0, 0⟩], [1]⟩], ⟨1, 1, 1⟩, 1⟩ 0 [0] = true :=
  (c4_hasFullCoverage_iff ⟨[⟨[⟨0, 0, 0⟩], [1]⟩], ⟨1, 1, 1⟩, 1⟩ 0 [0]
    (by decide) (by decide)).mpr (by decide)

/-! ### C7: the search restores the arrangement -/

theorem foldl_invariant {α σ : Type} (P : σ → Prop) (g : σ → α → σ) (l : List α)
    (s : σ) (hs : P s) (h : ∀ s' a, a ∈ l → P s' → P (g s' a)) : P (l.foldl g s) := by
  induction l generalizing s with
  | nil => exact hs
  | cons x t ih =>
    rw [List.foldl_cons]
    exact ih (g s x) (h s x (List.mem_cons_self x t) hs)
      fun s' a ha => h s' a (List.mem_cons_of_mem x ha)

theorem solveBoardFuel_fst (p : Puzzle) :
    ∀ (fuel : Nat) (arr : Arrangement) (prev : Nat) (remaining : List Nat)
      (st : SolverState), (solveBoardFuel p fuel arr prev remaining st).1 = arr := by
  intro fuel
  induction fuel with
  | zero => intro arr prev remaining st; rfl
  | succ f ih =>
    intro arr prev remaining st
    show (solveBoardFuel p (f + 1) arr prev remaining st).1 = arr
    unfold solveBoardFuel
    by_cases hrem : remaining = []
    · rw [if_pos hrem]
    · rw [if_neg hrem]
      apply foldl_invariant (fun s : Arrangement × SolverState => s.1 = arr)
      · rfl
      · intro s ip _ hs
        apply foldl_invariant (fun s2 : Arrangement × SolverState => s2.1 = arr)
        · exact hs
        · intro s2 placement _ hs2
          dsimp only
          split
          · rename_i hguard
            show ((solveBoardFuel p f (s2.1.push ip.2 placement) _ _ s2.2).1.pop).1 = arr
            rw [ih]
            rw [push_pop hguard.1]
            exact hs2
          · exact hs2

/-! ### Orientation geometry: min/max, translation, normalisation -/

theorem foldl_min_le_init (f : Coord → Int) :
    ∀ (cs : List Coord) (m : Int), cs.foldl (fun m d => min m (f d)) m ≤ m := by
  intro cs
  induction cs with
  | nil => intro m; exact le_refl m
  | cons c t ih => intro m; exact le_trans (ih (min m (f c))) (min_le_left _ _)

theorem foldl_min_le_mem (f : Coord → Int) :
    ∀ (cs : List Coord) (m : Int) (c : Coord), c ∈ cs →
      cs.foldl (fun m d => min m (f d)) m ≤ f c := by
  intro cs
  induction cs with
  | nil => intro m c h; cases h
  | cons d t ih =>
    intro m c h
    rcases List.mem_cons.mp h with rfl | h
    · exact le_trans (foldl_min_le_init f t (min m (f c))) (min_le_right _ _)
    · exact ih (min m (f d)) c h

theorem minOn_le {f : Coord → Int} {o : Orientation} {c : Coord} (h : c ∈ o) :
    minOn f o ≤ f c := by
  cases o with
  | nil => cases h
  | cons d t =>
    rcases List.mem_cons.mp h with rfl | h
    · exact foldl_min_le_init f t (f c)
    · exact foldl_min_le_mem f t (f d) c h

theorem foldl_le_max_init (f : Coord → Int) :
    ∀ (cs : List Coord) (m : Int), m ≤ cs.foldl (fun m d => max m (f d)) m := by
  intro cs
  induction cs with
  | nil => intro m; exact le_refl m
  | cons c t ih => intro m; exact le_trans (le_max_left _ _) (ih (max m (f c)))

theorem foldl_le_max_mem (f : Coord → Int) :
    ∀ (cs : List Coord) (m : Int) (c : Coord), c ∈ cs →
      f c ≤ cs.foldl (fun m d => max m (f d)) m := by
  intro cs
  induction cs with
  | nil => intro m c h; cases h
  | cons d t ih =>
    intro m c h
    rcases List.mem_cons.mp h with rfl | h
    · exact le_trans (le_max_right _ _) (foldl_le_max_init f t (max m (f c)))
    · exact ih (max m (f d)) c h

theorem le_maxOn {f : Coord → Int} {o : Orientation} {c : Coord} (h : c ∈ o) :
    f c ≤ maxOn f o := by
  cases o with
  | nil => cases h
  | cons d t =>
    rcases List.mem_cons.mp h with rfl | h
    · exact foldl_le_max_init f t (f c)
    · exact foldl_le_max_mem f t (f d) c h

theorem foldl_min_add (f : Coord → Int) (k : Int) :
    ∀ (cs : List Coord) (m : Int),
      cs.foldl (fun m d => min m (f d + k)) (m + k) =
        cs.foldl (fun m d => min m (f d)) m + k := by
  intro cs
  induction cs with
  | nil => intro m; rfl
  | cons c t ih =>
    intro m
    rw [List.foldl_cons, List.foldl_cons, min_add_add_right]
    exact ih (min m (f c))

theorem minOn_translateOri_x (v : Coord) (o : Orientation) (hne : o ≠ []) :
    minOn (·.x) (translateOri v o) = minOn (·.x) o + v.x := by
  cases o with
  | nil => exact absurd rfl hne
  | cons c t =>
    show (t.map _).foldl _ _ = _
    rw [List.foldl_map]
    exact foldl_min_add (·.x) v.x t c.x

theorem minOn_translateOri_y (v : Coord) (o : Orientation) (hne : o ≠ []) :
    minOn (·.y) (translateOri v o) = minOn (·.y) o + v.y := by
  cases o with
  | nil => exact absurd rfl hne
  | cons c t =>
    show (t.map _).foldl _ _ = _
    rw [List.foldl_map]
    exact foldl_min_add (·.y) v.y t c.y

theorem minOn_translateOri_z (v : Coord) (o : Orientation) (hne : o ≠ []) :
    minOn (·.z) (translateOri v o) = minOn (·.z) o + v.z := by
  cases o with
  | nil => exact absurd rfl hne
  | cons c t =>
    show (t.map _).foldl _ _ = _
    rw [List.foldl_map]
    exact foldl_min_add (·.z) v.z t c.z

theorem normaliseOri_normalised {o : Orientation} (hne : o ≠ []) :
    IsNormalised (normaliseOri o) := by
  unfold normaliseOri IsNormalised
  rw [minOn_translateOri_x _ _ hne, minOn_translateOri_y _ _ hne, minOn_translateOri_z _ _ hne]
  refine ⟨?_, ?_, ?_⟩ <;> simp

theorem normalised_nonneg {o : Orientation} (h : IsNormalised o) :
    ∀ c ∈ o, 0 ≤ c.x ∧ 0 ≤ c.y ∧ 0 ≤ c.z := by
  intro c hc
  exact ⟨h.1 ▸ minOn_le hc, h.2.1 ▸ minOn_le hc, h.2.2 ▸ minOn_le hc⟩

theorem rotateX_injective : Function.Injective Coord.rotateX := by
  intro c d h
  obtain ⟨cx, cy, cz⟩ := c
  obtain ⟨dx, dy, dz⟩ := d
  simp only [Coord.rotateX, Coord.mk.injEq] at h ⊢
  omega

theorem rotateY_injective : Function.Injective Coord.rotateY := by
  intro c d h
  obtain ⟨cx, cy, cz⟩ := c
  obtain ⟨dx, dy, dz⟩ := d
  simp only [Coord.rotateY, Coord.mk.injEq] at h ⊢
  omega

theorem rotateZ_injective : Function.Injective Coord.rotateZ := by
  intro c d h
  obtain ⟨cx, cy, cz⟩ := c
  obtain ⟨dx, dy, dz⟩ := d
  simp only [Coord.rotateZ, Coord.mk.injEq] at h ⊢
  omega

theorem translate_cell_injective (v : Coord) :
    Function.Injective fun c : Coord => (⟨c.x + v.x, c.y + v.y, c.z + v.z⟩ : Coord) := by
  intro c d h
  obtain ⟨cx, cy, cz⟩ := c
  obtain ⟨dx, dy, dz⟩ := d
  simp only [Coord.mk.injEq] at h ⊢
  omega

theorem translateOri_nodup {v : Coord} {o : Orientation} (h : o.Nodup) :
    (translateOri v o).Nodup :=
  h.map (translate_cell_injective v)

theorem normaliseOri_length (o : Orientation) : (normaliseOri o).length = o.length :=
  List.length_map ..

theorem normaliseOri_nodup {o : Orientation} (h : o.Nodup) : (normaliseOri o).Nodup :=
  translateOri_nodup h

theorem rotateOri_length (a b c : Nat) (o : Orientation) :
    (rotateOri a b c o).length = o.length := by
  unfold rotateOri
  rw [normaliseOri_length, List.length_map]

theorem rotateOri_ne_nil {a b c : Nat} {o : Orientation} (hne : o ≠ []) :
    rotateOri a b c o ≠ [] := by
  intro h
  apply hne
  have := rotateOri_length a b c o
  rw [h] at this
  exact List.eq_nil_of_length_eq_zero this.symm

theorem iterN_injective {f : Coord → Coord} (hf : Function.Injective f) :
    ∀ n : Nat, Function.Injective (iterN f n) := by
  intro n
  induction n with
  | zero => intro c d h; exact h
  | succ m ih =>
    intro c d h
    exact hf (ih h)

theorem rotateOri_nodup (a b c : Nat) {o : Orientation} (h : o.Nodup) :
    (rotateOri a b c o).Nodup := by
  unfold rotateOri
  apply normaliseOri_nodup
  apply List.Nodup.map _ h
  intro u v huv
  exact iterN_injective rotateX_injective a
    (iterN_injective rotateY_injective b (iterN_injective rotateZ_injective c huv))

theorem rotateOri_normalised (a b c : Nat) {o : Orientation} (hne : o ≠ []) :
    IsNormalised (rotateOri a b c o) := by
  unfold rotateOri
  apply normaliseOri_normalised
  intro h
  apply hne
  have hl := congrArg List.length h
  rw [List.length_map] at hl
  exact List.eq_nil_of_length_eq_zero hl

/-- Collected well-formedness facts for everything `Piece::orientations`
generates: same length as the base, distinct cells, nonempty, nonnegative
coordinates. -/
theorem candidates_props {base : Orientation} (hne : base ≠ []) (hnd : base.Nodup)
    (hnn : ∀ c ∈ base, 0 ≤ c.x ∧ 0 ≤ c.y ∧ 0 ≤ c.z) :
    ∀ o ∈ orientationCandidates base,
      o.length = base.length ∧ o.Nodup ∧ o ≠ [] ∧
        ∀ c ∈ o, 0 ≤ c.x ∧ 0 ≤ c.y ∧ 0 ≤ c.z := by
  have hcl : ∀ (a b c : Nat) (o : Orientation),
      (o.length = base.length ∧ o.Nodup ∧ o ≠ [] ∧
        ∀ d ∈ o, 0 ≤ d.x ∧ 0 ≤ d.y ∧ 0 ≤ d.z) →
      ((rotateOri a b c o).length = base.length ∧ (rotateOri a b c o).Nodup ∧
        rotateOri a b c o ≠ [] ∧
        ∀ d ∈ rotateOri a b c o, 0 ≤ d.x ∧ 0 ≤ d.y ∧ 0 ≤ d.z) := by
    intro a b c o ⟨hl, hd, hn, _⟩
    exact ⟨(rotateOri_length a b c o).trans hl, rotateOri_nodup a b c hd,
      rotateOri_ne_nil hn, normalised_nonneg (rotateOri_normalised a b c hn)⟩
  have hstep : ∀ cur : Orientation,
      (cur.length = base.length ∧ cur.Nodup ∧ cur ≠ [] ∧
        ∀ d ∈ cur, 0 ≤ d.x ∧ 0 ≤ d.y ∧ 0 ≤ d.z) →
      ∀ o ∈ [cur, rotateOri 0 1 0 cur, rotateOri 0 3 0 cur, rotateOri 0 0 1 cur,
          rotateOri 0 0 2 cur, rotateOri 0 0 3 cur],
        o.length = base.length ∧ o.Nodup ∧ o ≠ [] ∧
          ∀ c ∈ o, 0 ≤ c.x ∧ 0 ≤ c.y ∧ 0 ≤ c.z := by
    intro cur hcur o ho
    simp only [List.mem_cons, List.not_mem_nil, or_false] at ho
    rcases ho with rfl | rfl | rfl | rfl | rfl | rfl
    · exact hcur
    · exact hcl 0 1 0 cur hcur
    · exact hcl 0 3 0 cur hcur
    · exact hcl 0 0 1 cur hcur
    · exact hcl 0 0 2 cur hcur
    · exact hcl 0 0 3 cur hcur
  have hP0 : base.length = base.length ∧ base.Nodup ∧ base ≠ [] ∧
      ∀ d ∈ base, 0 ≤ d.x ∧ 0 ≤ d.y ∧ 0 ≤ d.z := ⟨rfl, hnd, hne, hnn⟩
  have hP1 := hcl 1 0 0 base hP0
  have hP2 := hcl 1 0 0 _ hP1
  have hP3 := hcl 1 0 0 _ hP2
  intro o ho
  unfold orientationCandidates at ho
  rcases List.mem_append.mp ho with ho123 | ho4
  · rcases List.mem_append.mp ho123 with ho12 | ho3
    · rcases List.mem_append.mp ho12 with ho1 | ho2
      · exact hstep base hP0 o ho1
      · exact hstep _ hP1 o ho2
    · exact hstep _ hP2 o ho3
  · exact hstep _ hP3 o ho4

theorem mem_of_mem_uniqueByAux (f : Orientation → Nat) :
    ∀ (l : List Orientation) (seen : List Nat) (x : Orientation),
      x ∈ uniqueByAux f l seen → x ∈ l := by
  intro l
  induction l with
  | nil => intro seen x h; cases h
  | cons a t ih =>
    intro seen x h
    unfold uniqueByAux at h
    by_cases hs : f a ∈ seen
    · rw [if_pos hs] at h
      exact List.mem_cons_of_mem a (ih seen x h)
    · rw [if_neg hs] at h
      rcases List.mem_cons.mp h with rfl | h
      · exact List.mem_cons_self x t
      · exact List.mem_cons_of_mem a (ih (f a :: seen) x h)

theorem mem_of_mem_uniqueBy {f : Orientation → Nat} {l : List Orientation}
    {x : Orientation} (h : x ∈ uniqueBy f l) : x ∈ l :=
  mem_of_mem_uniqueByAux f l [] x h

/-! ### C8: cell-count preservation -/

theorem cellIndex_inj {X Y Z x1 y1 z1 x2 y2 z2 : Int}
    (hx1 : 0 ≤ x1) (hx1' : x1 < X) (hy1 : 0 ≤ y1) (hy1' : y1 < Y)
    (hz1 : 0 ≤ z1) (hz1' : z1 < Z)
    (hx2 : 0 ≤ x2) (hx2' : x2 < X) (hy2 : 0 ≤ y2) (hy2' : y2 < Y)
    (hz2 : 0 ≤ z2) (hz2' : z2 < Z)
    (h : z1 * Y * X + y1 * X + x1 = z2 * Y * X + y2 * X + x2) :
    x1 = x2 ∧ y1 = y2 ∧ z1 = z2 := by
  have hX : 0 < X := lt_of_le_of_lt hx1 hx1'
  have hY : 0 < Y := lt_of_le_of_lt hy1 hy1'
  have e1 : z1 * Y * X + y1 * X + x1 = x1 + X * (y1 + Y * z1) := by ring
  have e2 : z2 * Y * X + y2 * X + x2 = x2 + X * (y2 + Y * z2) := by ring
  rw [e1, e2] at h
  have hm : x1 % X = x2 % X := by
    have h1 := congrArg (fun t => t % X) h
    simpa only [Int.add_mul_emod_self_left] using h1
  rw [Int.emod_eq_of_lt hx1 hx1', Int.emod_eq_of_lt hx2 hx2'] at hm
  refine ⟨hm, ?_⟩
  have h2 : y1 + Y * z1 = y2 + Y * z2 := by
    have h4 : X * (y1 + Y * z1) = X * (y2 + Y * z2) := by linarith
    exact mul_left_cancel₀ (ne_of_gt hX) h4
  have hm2 : y1 % Y = y2 % Y := by
    have h3 := congrArg (fun t => t % Y) h2
    simpa only [Int.add_mul_emod_self_left] using h3
  rw [Int.emod_eq_of_lt hy1 hy1', Int.emod_eq_of_lt hy2 hy2'] at hm2
  refine ⟨hm2, ?_⟩
  have h5 : Y * z1 = Y * z2 := by linarith
  exact mul_left_cancel₀ (ne_of_gt hY) h5

theorem countBits_fromOrientation {t : Orientation} {dim : Coord} (hnd : t.Nodup)
    (hbound : ∀ c ∈ t, 0 ≤ c.x ∧ c.x < dim.x ∧ 0 ≤ c.y ∧ c.y < dim.y ∧
      0 ≤ c.z ∧ c.z < dim.z) :
    countBits (fromOrientation t dim) = t.length := by
  have hset : bitsOf (fromOrientation t dim) =
      (t.map fun c => (c.z * dim.y * dim.x + c.y * dim.x + c.x).toNat).toFinset := by
    ext i
    rw [mem_bitsOf, testBit_fromOrientation, List.mem_toFinset]
    simp [List.mem_map]
  unfold countBits
  rw [hset, List.toFinset_card_of_nodup, List.length_map]
  apply List.Nodup.map_on _ hnd
  intro c hc d hd hcd
  obtain ⟨hcx, hcx', hcy, hcy', hcz, hcz'⟩ := hbound c hc
  obtain ⟨hdx, hdx', hdy, hdy', hdz, hdz'⟩ := hbound d hd
  have hXpos : (0 : Int) < dim.x := lt_of_le_of_lt hcx hcx'
  have hYpos : (0 : Int) < dim.y := lt_of_le_of_lt hcy hcy'
  have hge : 0 ≤ c.z * dim.y * dim.x + c.y * dim.x + c.x := by
    have t1 := mul_nonneg (mul_nonneg hcz hYpos.le) hXpos.le
    have t2 := mul_nonneg hcy hXpos.le
    omega
  have hge2 : 0 ≤ d.z * dim.y * dim.x + d.y * dim.x + d.x := by
    have t1 := mul_nonneg (mul_nonneg hdz hYpos.le) hXpos.le
    have t2 := mul_nonneg hdy hXpos.le
    omega
  have heq : c.z * dim.y * dim.x + c.y * dim.x + c.x =
      d.z * dim.y * dim.x + d.y * dim.x + d.x := by omega
  obtain ⟨h1, h2, h3⟩ := cellIndex_inj hcx hcx' hcy hcy' hcz hcz'
    hdx hdx' hdy hdy' hdz hdz' heq
  obtain ⟨cx, cy, cz⟩ := c
  obtain ⟨dx, dy, dz⟩ := d
  simp only [Coord.mk.injEq]
  exact ⟨h1, h2, h3⟩

theorem countBits_uniquePlacements {o : Orientation} {dim : Coord} (hnd : o.Nodup)
    (hnn : ∀ c ∈ o, 0 ≤ c.x ∧ 0 ≤ c.y ∧ 0 ≤ c.z) :
    ∀ pl ∈ uniquePlacements o dim, countBits pl = o.length := by
  intro pl hpl
  simp only [uniquePlacements, List.mem_flatMap, List.mem_map, List.mem_range] at hpl
  obtain ⟨xo, hxo, yo, hyo, zn, hzn, rfl⟩ := hpl
  simp only [orientationBounds] at hxo hyo hzn
  have hlen : (translateOri ⟨(xo : Int), (yo : Int), (zn : Int)⟩ o).length = o.length :=
    List.length_map ..
  rw [← hlen]
  apply countBits_fromOrientation (translateOri_nodup hnd)
  intro c hc
  rw [translateOri, List.mem_map] at hc
  obtain ⟨c0, hc0, rfl⟩ := hc
  obtain ⟨h0x, h0y, h0z⟩ := hnn c0 hc0
  have hbx : c0.x ≤ maxOn (·.x) o := le_maxOn hc0
  have hby : c0.y ≤ maxOn (·.y) o := le_maxOn hc0
  have hbz : c0.z ≤ maxOn (·.z) o := le_maxOn hc0
  have hx' : (xo : Int) + maxOn (·.x) o < dim.x := by omega
  have hy' : (yo : Int) + maxOn (·.y) o < dim.y := by omega
  have hz' : (zn : Int) + maxOn (·.z) o < dim.z := by omega
  dsimp only
  refine ⟨by omega, by omega, by omega, by omega, by omega, by omega⟩

/-- C8 (confirmed): for a piece whose base shape is a nonempty list of
pairwise-distinct cells with nonnegative coordinates (as every CSV-parsed
shape is), every placement in the piece's placement list has exactly as many
set bits as the base has cells — rotation, normalisation and translation
never add or remove cells. -/
theorem c8_cell_count_preserved (pc : Piece) (dim : Coord) (hne : pc.base ≠ [])
    (hnd : pc.base.Nodup)
    (hnn : ∀ c ∈ pc.base, 0 ≤ c.x ∧ 0 ≤ c.y ∧ 0 ≤ c.z) :
    ∀ pl ∈ piecePlacements pc dim, countBits pl = pc.base.length := by
  intro pl hpl
  rw [piecePlacements, List.mem_flatMap] at hpl
  obtain ⟨o, ho, hplo⟩ := hpl
  obtain ⟨hlen, hond, _, honn⟩ :=
    candidates_props hne hnd hnn o (mem_of_mem_uniqueBy ho)
  rw [← hlen]
  exact countBits_uniquePlacements hond honn pl hplo

theorem c8_witness : countBits 1 = 1 :=
  c8_cell_count_preserved ⟨[⟨0, 0, 0⟩], []⟩ ⟨1, 1, 1⟩ (by decide) (by decide)
    (by decide) 1 (by decide)

/-! ### C6: the placement generator -/

theorem filter_flatMap {α β : Type} (l : List α) (f : α → List β) (p : β → Bool) :
    (l.flatMap f).filter p = l.flatMap fun x => (f x).filter p := by
  induction l with
  | nil => rfl
  | cons x t ih => rw [List.flatMap_cons, List.flatMap_cons, List.filter_append, ih]

theorem flatMap_congr2 {α β : Type} {l : List α} {f g : α → List β}
    (h : ∀ x ∈ l, f x = g x) : l.flatMap f = l.flatMap g := by
  induction l with
  | nil => rfl
  | cons x t ih =>
    rw [List.flatMap_cons, List.flatMap_cons, h x (List.mem_cons_self x t),
      ih fun y hy => h y (List.mem_cons_of_mem x hy)]

theorem flatMap_eq_nil_of {α β : Type} {l : List α} {f : α → List β}
    (h : ∀ x ∈ l, f x = []) : l.flatMap f = [] := by
  induction l with
  | nil => rfl
  | cons x t ih =>
    rw [List.flatMap_cons, h x (List.mem_cons_self x t), List.nil_append]
    exact ih fun y hy => h y (List.mem_cons_of_mem x hy)

theorem flatMap_map_comp {α β γ : Type} (l : List α) (f : α → β) (g : β → List γ) :
    (l.map f).flatMap g = l.flatMap fun x => g (f x) := by
  induction l with
  | nil => rfl
  | cons x t ih => rw [List.map_cons, List.flatMap_cons, List.flatMap_cons, ih]

theorem filter_range_lt (c : Nat) : ∀ n : Nat,
    (List.range n).filter (fun k => decide (k < c)) = List.range (min c n) := by
  intro n
  induction n with
  | zero => simp
  | succ m ih =>
    rw [List.range_succ, List.filter_append, ih]
    by_cases h : m < c
    · have e1 : List.filter (fun k => decide (k < c)) [m] = [m] := by simp [h]
      rw [e1, (by omega : min c m = m), (by omega : min c (m + 1) = m + 1),
        List.range_succ]
    · have e1 : List.filter (fun k => decide (k < c)) [m] = [] := by simp [h]
      rw [e1, List.append_nil, (by omega : min c (m + 1) = min c m)]

theorem flatMap_range_restrict {β : Type} {n n' : Nat} (h : n' ≤ n)
    (g g' : Nat → List β) (h1 : ∀ k, k < n' → g k = g' k)
    (h2 : ∀ k, n' ≤ k → k < n → g k = []) :
    (List.range n).flatMap g = (List.range n').flatMap g' := by
  have hsplit : List.range n = List.range n' ++ (List.range (n - n')).map fun x => n' + x := by
    calc List.range n = List.range (n' + (n - n')) := by congr 1; omega
    _ = _ := List.range_add n' (n - n')
  have hnil : ((List.range (n - n')).flatMap fun k => g (n' + k)) = [] := by
    apply flatMap_eq_nil_of
    intro k hk
    have hk' := List.mem_range.mp hk
    exact h2 (n' + k) (by omega) (by omega)
  rw [hsplit, List.flatMap_append]
  rw [flatMap_map_comp]
  rw [hnil, List.append_nil]
  exact flatMap_congr2 fun k hk => h1 k (List.mem_range.mp hk)

theorem specOffsets_eq (ori : Orientation) (dim : Coord) (hne : ori ≠ [])
    (hnorm : IsNormalised ori) :
    specOffsets ori dim =
      (List.range (dim.x - maxOn (·.x) ori).toNat).flatMap fun (xo : Nat) =>
        (List.range (dim.y - maxOn (·.y) ori).toNat).flatMap fun (yo : Nat) =>
          (List.range (dim.z - maxOn (·.z) ori).toNat).map fun (zo : Nat) =>
            (⟨(xo : Int), (yo : Int), (zo : Int)⟩ : Coord) := by
  obtain ⟨hmx, hmy, hmz⟩ := hnorm
  obtain ⟨c0, hc0⟩ : ∃ c, c ∈ ori := by
    cases ori with
    | nil => exact absurd rfl hne
    | cons c t => exact ⟨c, List.mem_cons_self c t⟩
  have hbx : 0 ≤ maxOn (·.x) ori := hmx ▸ le_trans (minOn_le hc0) (le_maxOn hc0)
  have hby : 0 ≤ maxOn (·.y) ori := hmy ▸ le_trans (minOn_le hc0) (le_maxOn hc0)
  have hbz : 0 ≤ maxOn (·.z) ori := hmz ▸ le_trans (minOn_le hc0) (le_maxOn hc0)
  unfold specOffsets
  rw [filter_flatMap]
  apply flatMap_range_restrict (by omega)
  · intro xo hxo
    rw [filter_flatMap]
    apply flatMap_range_restrict (by omega)
    · intro yo hyo
      rw [List.filter_map]
      have hfc : (List.range dim.z.toNat).filter
          ((fun off => decide (specFits ori dim off)) ∘ fun (zo : Nat) =>
            (⟨(xo : Int), (yo : Int), (zo : Int)⟩ : Coord)) =
          List.range (dim.z - maxOn (·.z) ori).toNat := by
        have hcongr : ∀ zo ∈ List.range dim.z.toNat,
            ((fun off => decide (specFits ori dim off)) ∘ fun (zo : Nat) =>
              (⟨(xo : Int), (yo : Int), (zo : Int)⟩ : Coord)) zo =
            decide (zo < (dim.z - maxOn (·.z) ori).toNat) := by
          intro zo hzo
          show decide (specFits ori dim ⟨(xo : Int), (yo : Int), (zo : Int)⟩) = _
          rw [decide_eq_decide]
          unfold specFits
          rw [hmx, hmy, hmz]
          dsimp only
          omega
        rw [List.filter_congr hcongr, filter_range_lt]
        congr 1
        omega
      rw [hfc]
    · intro yo hyo1 hyo2
      rw [List.filter_eq_nil_iff]
      intro off hoff
      rw [List.mem_map] at hoff
      obtain ⟨zo, hzo, rfl⟩ := hoff
      simp only [decide_eq_true_eq]
      unfold specFits
      rw [hmx, hmy, hmz]
      dsimp only
      omega
  · intro xo hxo1 hxo2
    rw [List.filter_eq_nil_iff]
    intro off hoff
    simp only [List.mem_flatMap, List.mem_map, List.mem_range] at hoff
    obtain ⟨yo, hyo, zo, hzo, rfl⟩ := hoff
    simp only [decide_eq_true_eq]
    unfold specFits
    rw [hmx, hmy, hmz]
    dsimp only
    omega

/-- C6 counterexample: for a non-normalised orientation not every legal
offset appears.  The one-cell shape at `(1,0,0)` in a `1×1×1` volume gets no
placements from the generator (the per-axis ranges `0..(dim−max)` are
empty), yet the offset `(−1,0,0)` translates its bounding box into the
volume. -/
theorem c6_counterexample :
    uniquePlacements [⟨1, 0, 0⟩] ⟨1, 1, 1⟩ = [] ∧
    specFits [⟨1, 0, 0⟩] ⟨1, 1, 1⟩ ⟨-1, 0, 0⟩ := by
  constructor
  · rfl
  · decide

/-- C6 (amended): for every *normalised* orientation (per-axis minimum `0` —
which holds for every orientation the enumerator produces except a
non-normalised base shape), `unique_placements` emits exactly one placement
per legal translation offset in the generator's x/y/z order; `specFits`
characterises the legal offsets (translated bounding box inside the volume)
and membership in `specOffsets` is equivalent to it; each emitted mask sets
exactly the bits `z·Y·X + y·X + x` of the translated cells; and a piece's
placement list is the concatenation over its unique orientations. -/
theorem c6_unique_placements_spec (ori : Orientation) (dim : Coord) (hne : ori ≠ [])
    (hnorm : IsNormalised ori) :
    uniquePlacements ori dim =
      (specOffsets ori dim).map (fun off => fromOrientation (translateOri off ori) dim) ∧
    (∀ off : Coord, specFits ori dim off ↔ off ∈ specOffsets ori dim) ∧
    (∀ off ∈ specOffsets ori dim, ∀ i : Nat,
        ((fromOrientation (translateOri off ori) dim).testBit i = true ↔
          ∃ c ∈ translateOri off ori,
            (i : Int) = c.z * dim.y * dim.x + c.y * dim.x + c.x)) ∧
    (∀ pc : Piece, piecePlacements pc dim =
        pc.orientations.flatMap fun o => uniquePlacements o dim) := by
  obtain ⟨hmx, hmy, hmz⟩ := hnorm
  obtain ⟨c0, hc0⟩ : ∃ c, c ∈ ori := by
    cases ori with
    | nil => exact absurd rfl hne
    | cons c t => exact ⟨c, List.mem_cons_self c t⟩
  have hbx : 0 ≤ maxOn (·.x) ori := hmx ▸ le_trans (minOn_le hc0) (le_maxOn hc0)
  have hby : 0 ≤ maxOn (·.y) ori := hmy ▸ le_trans (minOn_le hc0) (le_maxOn hc0)
  have hbz : 0 ≤ maxOn (·.z) ori := hmz ▸ le_trans (minOn_le hc0) (le_maxOn hc0)
  have hfits_of_mem : ∀ off ∈ specOffsets ori dim, specFits ori dim off := by
    intro off hmem
    unfold specOffsets at hmem
    rw [List.mem_filter] at hmem
    exact of_decide_eq_true hmem.2
  refine ⟨?_, ?_, ?_, fun pc => rfl⟩
  · rw [specOffsets_eq ori dim hne ⟨hmx, hmy, hmz⟩]
    unfold uniquePlacements
    simp only [orientationBounds, List.map_flatMap, List.map_map, Function.comp_def]
  · intro off
    constructor
    · intro hf
      unfold specOffsets
      rw [List.mem_filter]
      refine ⟨?_, decide_eq_true hf⟩
      unfold specFits at hf
      rw [hmx, hmy, hmz] at hf
      simp only [List.mem_flatMap, List.mem_map, List.mem_range]
      refine ⟨off.x.toNat, by omega, off.y.toNat, by omega, ?_⟩
      refine ⟨off.z.toNat, by omega, ?_⟩
      obtain ⟨ox, oy, oz⟩ := off
      simp only [Coord.mk.injEq]
      refine ⟨?_, ?_, ?_⟩ <;> simp only at hf ⊢ <;> omega
    · exact hfits_of_mem off
  · intro off hoff i
    have hf := hfits_of_mem off hoff
    unfold specFits at hf
    rw [hmx, hmy, hmz] at hf
    have hcb : ∀ c ∈ translateOri off ori,
        0 ≤ c.x ∧ c.x < dim.x ∧ 0 ≤ c.y ∧ c.y < dim.y ∧ 0 ≤ c.z ∧ c.z < dim.z := by
      intro c hc
      rw [translateOri, List.mem_map] at hc
      obtain ⟨d, hd, rfl⟩ := hc
      have h1 : 0 ≤ d.x := hmx ▸ minOn_le hd
      have h2 : 0 ≤ d.y := hmy ▸ minOn_le hd
      have h3 : 0 ≤ d.z := hmz ▸ minOn_le hd
      have h4 : d.x ≤ maxOn (·.x) ori := le_maxOn hd
      have h5 : d.y ≤ maxOn (·.y) ori := le_maxOn hd
      have h6 : d.z ≤ maxOn (·.z) ori := le_maxOn hd
      dsimp only
      omega
    have hexpr : ∀ c ∈ translateOri off ori,
        (0 ≤ c.z * dim.y * dim.x + c.y * dim.x + c.x) := by
      intro c hc
      obtain ⟨h1, h2, h3, h4, h5, h6⟩ := hcb c hc
      have hXpos : (0 : Int) < dim.x := lt_of_le_of_lt h1 h2
      have hYpos : (0 : Int) < dim.y := lt_of_le_of_lt h3 h4
      have t1 := mul_nonneg (mul_nonneg h5 hYpos.le) hXpos.le
      have t2 := mul_nonneg h3 hXpos.le
      omega
    rw [testBit_fromOrientation]
    constructor
    · rintro ⟨c, hc, he⟩
      refine ⟨c, hc, ?_⟩
      have := hexpr c hc
      omega
    · rintro ⟨c, hc, he⟩
      refine ⟨c, hc, ?_⟩
      have := hexpr c hc
      omega

theorem c6_witness :
    uniquePlacements [(⟨0, 0, 0⟩ : Coord)] ⟨1, 1, 1⟩ =
      (specOffsets [(⟨0, 0, 0⟩ : Coord)] ⟨1, 1, 1⟩).map
        (fun off => fromOrientation (translateOri off [(⟨0, 0, 0⟩ : Coord)]) ⟨1, 1, 1⟩) :=
  (c6_unique_placements_spec [⟨0, 0, 0⟩] ⟨1, 1, 1⟩ (by decide) (by decide)).1

/-! ### C5: the orientation enumerator and the 24-element rotation group -/

theorem apply_mul (m n : M3) (c : Coord) : (m.mul n).apply c = m.apply (n.apply c) := by
  obtain ⟨x, y, z⟩ := c
  simp only [M3.apply, M3.mul, Coord.mk.injEq]
  refine ⟨by ring, by ring, by ring⟩

theorem apply_mIdent (c : Coord) : mIdent.apply c = c := by
  obtain ⟨x, y, z⟩ := c
  simp only [M3.apply, mIdent, Coord.mk.injEq]
  refine ⟨by ring, by ring, by ring⟩

theorem map_mul_apply (m n : M3) (l : Orientation) :
    (l.map n.apply).map m.apply = l.map (m.mul n).apply := by
  rw [List.map_map]
  exact List.map_congr_left fun d _ => (apply_mul m n d).symm

theorem apply_translate (m : M3) (v c : Coord) :
    m.apply ⟨c.x + v.x, c.y + v.y, c.z + v.z⟩ =
      ⟨(m.apply c).x + (m.apply v).x, (m.apply c).y + (m.apply v).y,
        (m.apply c).z + (m.apply v).z⟩ := by
  simp only [M3.apply, Coord.mk.injEq]
  refine ⟨by ring, by ring, by ring⟩

theorem map_apply_translateOri (m : M3) (v : Coord) (o : Orientation) :
    (translateOri v o).map m.apply = translateOri (m.apply v) (o.map m.apply) := by
  unfold translateOri
  rw [List.map_map, List.map_map]
  apply List.map_congr_left
  intro c _
  show m.apply ⟨c.x + v.x, c.y + v.y, c.z + v.z⟩ = _
  rw [apply_translate]
  rfl

theorem normaliseOri_translateOri (v : Coord) {o : Orientation} (hne : o ≠ []) :
    normaliseOri (translateOri v o) = normaliseOri o := by
  unfold normaliseOri
  rw [minOn_translateOri_x v o hne, minOn_translateOri_y v o hne, minOn_translateOri_z v o hne]
  unfold translateOri
  rw [List.map_map]
  apply List.map_congr_left
  intro c _
  show (⟨c.x + v.x + -(minOn (·.x) o + v.x), c.y + v.y + -(minOn (·.y) o + v.y),
      c.z + v.z + -(minOn (·.z) o + v.z)⟩ : Coord) = _
  simp only [Coord.mk.injEq]
  refine ⟨by ring, by ring, by ring⟩

theorem normalise_map_normalise (m : M3) {o : Orientation} (hne : o ≠ []) :
    normaliseOri ((normaliseOri o).map m.apply) = normaliseOri (o.map m.apply) := by
  show normaliseOri ((translateOri _ o).map m.apply) = _
  rw [map_apply_translateOri]
  apply normaliseOri_translateOri
  intro h
  exact hne (List.map_eq_nil_iff.mp h)

theorem hw100 (d : Coord) :
    iterN Coord.rotateZ 0 (iterN Coord.rotateY 0 (iterN Coord.rotateX 1 d)) = mX.apply d := by
  show Coord.rotateX d = mX.apply d
  obtain ⟨x, y, z⟩ := d
  simp only [Coord.rotateX, M3.apply, mX, Coord.mk.injEq]
  refine ⟨by ring, by ring, by ring⟩

theorem hw010 (d : Coord) :
    iterN Coord.rotateZ 0 (iterN Coord.rotateY 1 (iterN Coord.rotateX 0 d)) = mY.apply d := by
  show Coord.rotateY d = mY.apply d
  obtain ⟨x, y, z⟩ := d
  simp only [Coord.rotateY, M3.apply, mY, Coord.mk.injEq]
  refine ⟨by ring, by ring, by ring⟩

theorem hw030 (d : Coord) :
    iterN Coord.rotateZ 0 (iterN Coord.rotateY 3 (iterN Coord.rotateX 0 d)) =
      (mY.mul (mY.mul mY)).apply d := by
  show Coord.rotateY (Coord.rotateY (Coord.rotateY d)) = _
  obtain ⟨x, y, z⟩ := d
  simp only [Coord.rotateY, M3.apply, M3.mul, mY, Coord.mk.injEq]
  refine ⟨by ring, by ring, by ring⟩

theorem hw001 (d : Coord) :
    iterN Coord.rotateZ 1 (iterN Coord.rotateY 0 (iterN Coord.rotateX 0 d)) = mZ.apply d := by
  show Coord.rotateZ d = mZ.apply d
  obtain ⟨x, y, z⟩ := d
  simp only [Coord.rotateZ, M3.apply, mZ, Coord.mk.injEq]
  refine ⟨by ring, by ring, by ring⟩

theorem hw002 (d : Coord) :
    iterN Coord.rotateZ 2 (iterN Coord.rotateY 0 (iterN Coord.rotateX 0 d)) =
      (mZ.mul mZ).apply d := by
  show Coord.rotateZ (Coord.rotateZ d) = _
  obtain ⟨x, y, z⟩ := d
  simp only [Coord.rotateZ, M3.apply, M3.mul, mZ, Coord.mk.injEq]
  refine ⟨by ring, by ring, by ring⟩

theorem hw003 (d : Coord) :
    iterN Coord.rotateZ 3 (iterN Coord.rotateY 0 (iterN Coord.rotateX 0 d)) =
      (mZ.mul (mZ.mul mZ)).apply d := by
  show Coord.rotateZ (Coord.rotateZ (Coord.rotateZ d)) = _
  obtain ⟨x, y, z⟩ := d
  simp only [Coord.rotateZ, M3.apply, M3.mul, mZ, Coord.mk.injEq]
  refine ⟨by ring, by ring, by ring⟩

theorem candidates_eq_words {base : Orientation} (hne : base ≠ [])
    (hbase : normaliseOri base = base) :
    orientationCandidates base =
      rotGroup.map fun w => normaliseOri (base.map w.apply) := by
  have hmapne : ∀ w : M3, base.map w.apply ≠ [] := by
    intro w h
    exact hne (List.map_eq_nil_iff.mp h)
  have hwordb : ∀ (a b c : Nat) (m : M3),
      (∀ d, iterN Coord.rotateZ c (iterN Coord.rotateY b (iterN Coord.rotateX a d)) =
        m.apply d) →
      ∀ o : Orientation, rotateOri a b c o = normaliseOri (o.map m.apply) := by
    intro a b c m hm o
    unfold rotateOri
    congr 1
    exact List.map_congr_left fun d _ => hm d
  have hword : ∀ (a b c : Nat) (m : M3),
      (∀ d, iterN Coord.rotateZ c (iterN Coord.rotateY b (iterN Coord.rotateX a d)) =
        m.apply d) →
      ∀ w : M3, rotateOri a b c (normaliseOri (base.map w.apply)) =
        normaliseOri (base.map (m.mul w).apply) := by
    intro a b c m hm w
    rw [hwordb a b c m hm (normaliseOri (base.map w.apply)),
      normalise_map_normalise m (hmapne w), map_mul_apply]
  have hid : normaliseOri (base.map mIdent.apply) = base := by
    have e2 : base.map mIdent.apply = base.map id := List.map_congr_left fun d _ => apply_mIdent d
    rw [e2, List.map_id, hbase]
  have hblock : ∀ (cur : Orientation) (wx : M3),
      cur = normaliseOri (base.map wx.apply) →
      [cur, rotateOri 0 1 0 cur, rotateOri 0 3 0 cur, rotateOri 0 0 1 cur,
        rotateOri 0 0 2 cur, rotateOri 0 0 3 cur] =
      [normaliseOri (base.map wx.apply), normaliseOri (base.map (mY.mul wx).apply),
        normaliseOri (base.map ((mY.mul (mY.mul mY)).mul wx).apply),
        normaliseOri (base.map (mZ.mul wx).apply),
        normaliseOri (base.map ((mZ.mul mZ).mul wx).apply),
        normaliseOri (base.map ((mZ.mul (mZ.mul mZ)).mul wx).apply)] := by
    intro cur wx hcur
    subst hcur
    rw [hword 0 1 0 mY hw010 wx, hword 0 3 0 (mY.mul (mY.mul mY)) hw030 wx,
      hword 0 0 1 mZ hw001 wx, hword 0 0 2 (mZ.mul mZ) hw002 wx,
      hword 0 0 3 (mZ.mul (mZ.mul mZ)) hw003 wx]
  have hc1 : rotateOri 1 0 0 base = normaliseOri (base.map mX.apply) :=
    hwordb 1 0 0 mX hw100 base
  have hc2 : rotateOri 1 0 0 (rotateOri 1 0 0 base) =
      normaliseOri (base.map (mX.mul mX).apply) := by
    rw [hc1, hword 1 0 0 mX hw100 mX]
  have hc3 : rotateOri 1 0 0 (rotateOri 1 0 0 (rotateOri 1 0 0 base)) =
      normaliseOri (base.map (mX.mul (mX.mul mX)).apply) := by
    rw [hc2, hword 1 0 0 mX hw100 (mX.mul mX)]
  show ([base, rotateOri 0 1 0 base, rotateOri 0 3 0 base, rotateOri 0 0 1 base,
      rotateOri 0 0 2 base, rotateOri 0 0 3 base] ++
    [rotateOri 1 0 0 base, rotateOri 0 1 0 (rotateOri 1 0 0 base),
      rotateOri 0 3 0 (rotateOri 1 0 0 base), rotateOri 0 0 1 (rotateOri 1 0 0 base),
      rotateOri 0 0 2 (rotateOri 1 0 0 base), rotateOri 0 0 3 (rotateOri 1 0 0 base)] ++
    [rotateOri 1 0 0 (rotateOri 1 0 0 base),
      rotateOri 0 1 0 (rotateOri 1 0 0 (rotateOri 1 0 0 base)),
      rotateOri 0 3 0 (rotateOri 1 0 0 (rotateOri 1 0 0 base)),
      rotateOri 0 0 1 (rotateOri 1 0 0 (rotateOri 1 0 0 base)),
      rotateOri 0 0 2 (rotateOri 1 0 0 (rotateOri 1 0 0 base)),
      rotateOri 0 0 3 (rotateOri 1 0 0 (rotateOri 1 0 0 base))] ++
    [rotateOri 1 0 0 (rotateOri 1 0 0 (rotateOri 1 0 0 base)),
      rotateOri 0 1 0 (rotateOri 1 0 0 (rotateOri 1 0 0 (rotateOri 1 0 0 base))),
      rotateOri 0 3 0 (rotateOri 1 0 0 (rotateOri 1 0 0 (rotateOri 1 0 0 base))),
      rotateOri 0 0 1 (rotateOri 1 0 0 (rotateOri 1 0 0 (rotateOri 1 0 0 base))),
      rotateOri 0 0 2 (rotateOri 1 0 0 (rotateOri 1 0 0 (rotateOri 1 0 0 base))),
      rotateOri 0 0 3 (rotateOri 1 0 0 (rotateOri 1 0 0 (rotateOri 1 0 0 base)))]) = _
  rw [hblock base mIdent hid.symm,
    hblock (rotateOri 1 0 0 base) mX hc1,
    hblock (rotateOri 1 0 0 (rotateOri 1 0 0 base)) (mX.mul mX) hc2,
    hblock (rotateOri 1 0 0 (rotateOri 1 0 0 (rotateOri 1 0 0 base)))
      (mX.mul (mX.mul mX)) hc3]
  rfl

theorem key_mem_uniqueByAux (f : Orientation → Nat) :
    ∀ (l : List Orientation) (seen : List Nat) (x : Orientation),
      x ∈ l → f x ∉ seen → f x ∈ (uniqueByAux f l seen).map f := by
  intro l
  induction l with
  | nil => intro seen x h _; cases h
  | cons a t ih =>
    intro seen x hx hseen
    unfold uniqueByAux
    by_cases hs : f a ∈ seen
    · rw [if_pos hs]
      rcases List.mem_cons.mp hx with rfl | hx'
      · exact absurd hs hseen
      · exact ih seen x hx' hseen
    · rw [if_neg hs, List.map_cons]
      by_cases hfa : f x = f a
      · rw [hfa]
        exact List.mem_cons_self _ _
      · rcases List.mem_cons.mp hx with rfl | hx'
        · exact absurd rfl hfa
        · refine List.mem_cons_of_mem _ (ih (f a :: seen) x hx' ?_)
          intro hmem
          rcases List.mem_cons.mp hmem with h1 | h2
          · exact hfa h1
          · exact hseen h2

theorem key_nodup_uniqueByAux (f : Orientation → Nat) :
    ∀ (l : List Orientation) (seen : List Nat),
      ((uniqueByAux f l seen).map f).Nodup ∧
        ∀ k ∈ (uniqueByAux f l seen).map f, k ∉ seen := by
  intro l
  induction l with
  | nil =>
    intro seen
    exact ⟨List.nodup_nil, by intro k hk; cases hk⟩
  | cons a t ih =>
    intro seen
    unfold uniqueByAux
    by_cases hs : f a ∈ seen
    · rw [if_pos hs]
      exact ih seen
    · rw [if_neg hs]
      obtain ⟨hnd, hnotin⟩ := ih (f a :: seen)
      rw [List.map_cons]
      constructor
      · rw [List.nodup_cons]
        exact ⟨fun hmem => (hnotin (f a) hmem) (List.mem_cons_self _ _), hnd⟩
      · intro k hk
        rcases List.mem_cons.mp hk with rfl | hk'
        · exact hs
        · intro hkseen
          exact (hnotin k hk') (List.mem_cons_of_mem _ hkseen)

theorem uniqueByAux_length (f : Orientation → Nat) :
    ∀ (l : List Orientation) (seen : List Nat),
      (uniqueByAux f l seen).length ≤ l.length := by
  intro l
  induction l with
  | nil => intro seen; exact Nat.le_refl 0
  | cons a t ih =>
    intro seen
    unfold uniqueByAux
    by_cases hs : f a ∈ seen
    · rw [if_pos hs]
      exact le_trans (ih seen) (Nat.le_succ _)
    · rw [if_neg hs, List.length_cons]
      exact Nat.succ_le_succ (ih (f a :: seen))

/-- C5 counterexample: the first candidate `Piece::orientations` pushes is
the base *unnormalised*.  For the one-cell piece at `(1,1,1)` the returned
set has two elements — the unnormalised base (whose per-axis minimum is `1`,
not `0`) and the normalised cell — although a single cell has exactly one
geometrically distinct rotation. -/
theorem c5_counterexample :
    [(⟨1, 1, 1⟩ : Coord)] ∈ (Piece.orientations ⟨[⟨1, 1, 1⟩], []⟩) ∧
    minOn (·.x) [(⟨1, 1, 1⟩ : Coord)] ≠ 0 ∧
    (Piece.orientations ⟨[⟨1, 1, 1⟩], []⟩).length = 2 := by
  decide

/-- C5 (amended): for a piece whose base shape is nonempty, already
normalised, and fits the 4×4×4 canonical frame (as every Bedlam-cube piece
does), `Piece::orientations` behaves as claimed, with geometric identity
read — as the spec's data model defines it — through the canonical 4×4×4
bitmask: (1) the generating word list is the full 24-element rotation group
(24 distinct elements, containing the identity and closed under
composition); (2) every returned orientation is a normalised rotation
`normalise (w · base)` for some group element `w`; (3) the returned set
carries exactly the canonical masks of all 24 normalised rotations;
(4) the returned masks are pairwise distinct (deduplication); (5) at most 24
orientations are returned; and (6) applying any group rotation to a member
and re-normalising yields a mask already present. -/
theorem c5_orientations_amended (pc : Piece) (hne : pc.base ≠ [])
    (hbase : normaliseOri pc.base = pc.base)
    (hfit : ∀ c ∈ pc.base, c.x ≤ 3 ∧ c.y ≤ 3 ∧ c.z ≤ 3) :
    (rotGroup.length = 24 ∧ rotGroup.Nodup ∧ mIdent ∈ rotGroup ∧
      ∀ u ∈ rotGroup, ∀ v ∈ rotGroup, u.mul v ∈ rotGroup) ∧
    (∀ o ∈ pc.orientations, ∃ w ∈ rotGroup,
      o = normaliseOri (pc.base.map w.apply)) ∧
    ((pc.orientations.map canonicalMask).toFinset =
      (rotGroup.map fun w => canonicalMask (normaliseOri (pc.base.map w.apply))).toFinset) ∧
    (pc.orientations.map canonicalMask).Nodup ∧
    pc.orientations.length ≤ 24 ∧
    (∀ o ∈ pc.orientations, ∀ w ∈ rotGroup,
      canonicalMask (normaliseOri (o.map w.apply)) ∈ pc.orientations.map canonicalMask) := by
  have hgrp : rotGroup.length = 24 ∧ rotGroup.Nodup ∧ mIdent ∈ rotGroup ∧
      ∀ u ∈ rotGroup, ∀ v ∈ rotGroup, u.mul v ∈ rotGroup :=
    ⟨by decide, by decide, by decide, by decide⟩
  have hmapne : ∀ w : M3, pc.base.map w.apply ≠ [] := by
    intro w h
    exact hne (List.map_eq_nil_iff.mp h)
  have hcand := candidates_eq_words hne hbase
  have hmem : ∀ o ∈ pc.orientations, ∃ w ∈ rotGroup,
      o = normaliseOri (pc.base.map w.apply) := by
    intro o ho
    have h1 : o ∈ orientationCandidates pc.base := mem_of_mem_uniqueBy ho
    rw [hcand, List.mem_map] at h1
    obtain ⟨w, hw, heq⟩ := h1
    exact ⟨w, hw, heq.symm⟩
  have hkey : ∀ w ∈ rotGroup,
      canonicalMask (normaliseOri (pc.base.map w.apply)) ∈
        pc.orientations.map canonicalMask := by
    intro w hw
    have h1 : normaliseOri (pc.base.map w.apply) ∈ orientationCandidates pc.base := by
      rw [hcand, List.mem_map]
      exact ⟨w, hw, rfl⟩
    have h2 := key_mem_uniqueByAux canonicalMask (orientationCandidates pc.base) []
      (normaliseOri (pc.base.map w.apply)) h1 (by intro h; cases h)
    exact h2
  have hsetEq : (pc.orientations.map canonicalMask).toFinset =
      (rotGroup.map fun w => canonicalMask (normaliseOri (pc.base.map w.apply))).toFinset := by
    ext k
    rw [List.mem_toFinset, List.mem_toFinset, List.mem_map, List.mem_map]
    constructor
    · rintro ⟨o, ho, rfl⟩
      obtain ⟨w, hw, rfl⟩ := hmem o ho
      exact ⟨w, hw, rfl⟩
    · rintro ⟨w, hw, rfl⟩
      have := hkey w hw
      rw [List.mem_map] at this
      exact this
  refine ⟨hgrp, hmem, hsetEq, ?_, ?_, ?_⟩
  · exact (key_nodup_uniqueByAux canonicalMask (orientationCandidates pc.base) []).1
  · calc pc.orientations.length ≤ (orientationCandidates pc.base).length :=
        uniqueByAux_length canonicalMask (orientationCandidates pc.base) []
    _ = 24 := by rw [hcand, List.length_map]; decide
  · intro o ho w hw
    obtain ⟨w', hw', rfl⟩ := hmem o ho
    have he : normaliseOri ((normaliseOri (pc.base.map w'.apply)).map w.apply) =
        normaliseOri (pc.base.map (w.mul w').apply) := by
      rw [normalise_map_normalise w (hmapne w'), map_mul_apply]
    rw [he]
    exact hkey (w.mul w') (hgrp.2.2.2 w hw w' hw')

theorem c5_witness :
    (Piece.orientations ⟨[(⟨0, 0, 0⟩ : Coord)], []⟩).length ≤ 24 :=
  (c5_orientations_amended ⟨[⟨0, 0, 0⟩], []⟩ (by decide) (by decide)
    (by decide)).2.2.2.2.1

/-! ### C2: every recorded solution is an exact cover -/

theorem unionMasks_cons (x : Nat × Nat) (t : List (Nat × Nat)) :
    unionMasks (x :: t) = x.2 ||| unionMasks t := by
  show List.foldl _ (0 ||| x.2) t = _
  rw [foldl_lor_init t (0 ||| x.2), Nat.zero_or]

theorem unionMasks_lor_full {l : List (Nat × Nat)} {full : Nat}
    (h : ∀ pm ∈ l, pm.2 ||| full = full) : unionMasks l ||| full = full := by
  induction l with
  | nil => simp [unionMasks]
  | cons x t ih =>
    rw [unionMasks_cons, Nat.lor_assoc,
      ih fun pm hpm => h pm (List.mem_cons_of_mem x hpm),
      h x (List.mem_cons_self x t)]

theorem mem_enumFrom_get? {α : Type} :
    ∀ (l : List α) (n i : Nat) (a : α),
      (i, a) ∈ l.enumFrom n → n ≤ i ∧ l.get? (i - n) = some a := by
  intro l
  induction l with
  | nil => intro n i a h; simp at h
  | cons x t ih =>
    intro n i a h
    rw [List.enumFrom_cons] at h
    rcases List.mem_cons.mp h with heq | hmem
    · injection heq with h1 h2
      subst h2
      have h0 : i - n = 0 := by omega
      refine ⟨by omega, ?_⟩
      rw [h0, List.get?_cons_zero]
    · obtain ⟨hle, hget⟩ := ih (n + 1) i a hmem
      refine ⟨by omega, ?_⟩
      have hk : i - n = (i - (n + 1)) + 1 := by omega
      rw [hk, List.get?_cons_succ]
      exact hget

theorem mem_enum_get? {α : Type} {l : List α} {i : Nat} {a : α}
    (h : (i, a) ∈ l.enum) : l.get? i = some a := by
  have h2 := mem_enumFrom_get? l 0 i a h
  simpa using h2.2

theorem perm_cons_eraseIdx {α : Type} :
    ∀ (l : List α) (i : Nat) (a : α), l.get? i = some a →
      l.Perm (a :: l.eraseIdx i) := by
  intro l
  induction l with
  | nil => intro i a h; simp at h
  | cons x t ih =>
    intro i a h
    cases i with
    | zero =>
      rw [List.get?_cons_zero, Option.some.injEq] at h
      subst h
      exact List.Perm.refl _
    | succ j =>
      rw [List.get?_cons_succ] at h
      have hperm := ih j a h
      show (x :: t).Perm (a :: x :: t.eraseIdx j)
      exact (hperm.cons x).trans (List.Perm.swap a x _)

theorem leaf_exact (p : Puzzle) (hpl : PlacementsOK p) (htot : TotalOK p)
    (arr : Arrangement) (hga : GoodArr p arr) (hinv : Inventory p arr []) :
    IsExactCover p arr.placements := by
  obtain ⟨⟨hocc, hdisj⟩, hmem⟩ := hga
  have hperm : (arr.placements.map Prod.fst).Perm (List.range p.pieces.length) := by
    have h0 : (arr.placements.map Prod.fst ++ []).Perm (List.range p.pieces.length) := hinv
    simpa using h0
  refine ⟨hperm, hdisj, ?_⟩
  have hsubfull : unionMasks arr.placements ||| p.full = p.full := by
    apply unionMasks_lor_full
    intro pm hpm
    exact (hpl pm.1 (hmem pm hpm).1 pm.2 (hmem pm hpm).2).1
  have hcount : countBits (unionMasks arr.placements) = countBits p.full := by
    rw [countBits_unionMasks hdisj]
    have h1 : (arr.placements.map fun pm => countBits pm.2) =
        (arr.placements.map fun pm => (getPiece p pm.1).base.length) := by
      apply List.map_congr_left
      intro pm hpm
      exact (hpl pm.1 (hmem pm hpm).1 pm.2 (hmem pm hpm).2).2
    have h2 : (arr.placements.map fun pm => (getPiece p pm.1).base.length) =
        (arr.placements.map Prod.fst).map fun i => (getPiece p i).base.length := by
      rw [List.map_map]
      rfl
    rw [h1, h2, htot]
    exact (hperm.map fun i => (getPiece p i).base.length).sum_eq
  exact eq_of_lor_eq_of_count_le hsubfull (le_of_eq hcount.symm)

theorem solve_sound (p : Puzzle) (hpl : PlacementsOK p) (htot : TotalOK p) :
    ∀ (fuel : Nat) (remaining : List Nat) (arr : Arrangement) (prev : Nat)
      (st : SolverState), GoodArr p arr → Inventory p arr remaining →
      ∀ sol ∈ (solveBoardFuel p fuel arr prev remaining st).2.solutions,
        sol ∈ st.solutions ∨ IsExactCover p sol := by
  intro fuel
  induction fuel with
  | zero => intro remaining arr prev st _ _ sol hsol; exact Or.inl hsol
  | succ f ih =>
    intro remaining arr prev st hga hinv sol hsol
    have hQ : ((solveBoardFuel p (f + 1) arr prev remaining st).1 = arr ∧
        ∀ sol' ∈ (solveBoardFuel p (f + 1) arr prev remaining st).2.solutions,
          sol' ∈ st.solutions ∨ IsExactCover p sol') := by
      unfold solveBoardFuel
      by_cases hrem : remaining = []
      · rw [if_pos hrem]
        refine ⟨rfl, ?_⟩
        intro sol' hsol'
        rcases List.mem_append.mp hsol' with h | h
        · exact Or.inl h
        · rw [List.mem_singleton] at h
          subst h
          exact Or.inr (leaf_exact p hpl htot arr hga (by rw [← hrem]; exact hinv))
      · rw [if_neg hrem]
        apply foldl_invariant
          (fun s : Arrangement × SolverState =>
            s.1 = arr ∧ ∀ sol' ∈ s.2.solutions, sol' ∈ st.solutions ∨ IsExactCover p sol')
        · exact ⟨rfl, fun sol' h => Or.inl h⟩
        · intro s ip hip hQs
          apply foldl_invariant
            (fun s2 : Arrangement × SolverState =>
              s2.1 = arr ∧ ∀ sol' ∈ s2.2.solutions, sol' ∈ st.solutions ∨ IsExactCover p sol')
          · exact hQs
          · intro s2 placement hplmem hQ2
            dsimp only
            split
            · rename_i hguard
              obtain ⟨hfst, hsols⟩ := hQ2
              rw [hfst] at hguard
              have hget : remaining.get? ip.1 = some ip.2 := by
                apply mem_enum_get?
                have hip2 : (ip.1, ip.2) = ip := rfl
                rw [hip2]
                exact hip
              have hpidmem : ip.2 ∈ remaining := List.get?_mem hget
              have hpidlt : ip.2 < p.pieces.length := by
                have hmem2 : ip.2 ∈ List.range p.pieces.length :=
                  hinv.mem_iff.mp (List.mem_append_right _ hpidmem)
                exact List.mem_range.mp hmem2
              have hga' : GoodArr p (arr.push ip.2 placement) := by
                constructor
                · exact ArrInv_push hga.1 hguard.1
                · intro pm hpm
                  rcases List.mem_append.mp hpm with h | h
                  · exact hga.2 pm h
                  · rw [List.mem_singleton] at h
                    subst h
                    exact ⟨hpidlt, hplmem⟩
              have hinv' : Inventory p (arr.push ip.2 placement) (remaining.eraseIdx ip.1) := by
                show ((arr.placements ++ [(ip.2, placement)]).map Prod.fst ++
                    remaining.eraseIdx ip.1).Perm (List.range p.pieces.length)
                rw [List.map_append]
                have h1 : remaining.Perm (ip.2 :: remaining.eraseIdx ip.1) :=
                  perm_cons_eraseIdx remaining ip.1 ip.2 hget
                have h2 : ((arr.placements.map Prod.fst ++ [(ip.2, placement)].map Prod.fst) ++
                    remaining.eraseIdx ip.1).Perm
                      (arr.placements.map Prod.fst ++ remaining) := by
                  rw [List.append_assoc]
                  show (arr.placements.map Prod.fst ++ (ip.2 :: remaining.eraseIdx ip.1)).Perm _
                  exact List.Perm.append_left _ h1.symm
                exact h2.trans hinv
              constructor
              · show ((solveBoardFuel p f (s2.1.push ip.2 placement) _ _ s2.2).1.pop).1 = arr
                rw [hfst, solveBoardFuel_fst, push_pop hguard.1]
              · intro sol' hsol'
                rw [hfst] at hsol'
                rcases ih (remaining.eraseIdx ip.1) (arr.push ip.2 placement) _ s2.2
                    hga' hinv' sol' hsol' with h | h
                · exact hsols sol' h
                · exact Or.inr h
            · exact hQ2
    exact hQ.2 sol hsol

/-- C2 (confirmed): under the precondition that placements are well-formed
(each lies inside the full mask and carries exactly its piece's cell count)
and the pieces' total cell count equals the volume's cell count, every
solution `solve_board` records — beyond those already accumulated — is an
exact cover: exactly one placement per piece, pairwise-disjoint masks, and
union equal to the `Full` mask.  The entry state may carry any
already-committed prefix satisfying the arrangement invariant. -/
theorem c2_solutions_exact_cover (p : Puzzle) (hpl : PlacementsOK p) (htot : TotalOK p)
    (arr : Arrangement) (remaining : List Nat) (prev : Nat) (st : SolverState)
    (hga : GoodArr p arr) (hinv : Inventory p arr remaining) :
    ∀ sol ∈ (solveBoard p arr prev remaining st).2.solutions,
      sol ∈ st.solutions ∨ IsExactCover p sol :=
  solve_sound p hpl htot (remaining.length + 1) remaining arr prev st hga hinv

theorem c2_witness :
    IsExactCover ⟨[⟨[⟨0, 0, 0⟩], [1]⟩], ⟨1, 1, 1⟩, 1⟩ [(0, 1)] := by
  have h := c2_solutions_exact_cover ⟨[⟨[⟨0, 0, 0⟩], [1]⟩], ⟨1, 1, 1⟩, 1⟩
    (by decide) (by decide) Arrangement.new [0] 0 ⟨0, []⟩
    ⟨⟨rfl, List.Pairwise.nil⟩, by intro pm hpm; cases hpm⟩ (by decide)
    [(0, 1)] (by decide)
  rcases h with h | h
  · cases h
  · exact h

/-- C7 (confirmed): every call to `solve_board` leaves the `Arrangement`
exactly as it found it — each committed push is undone by the unconditional
pop, and the pop restores the state bit-for-bit because the guard committed
only placements disjoint from the occupancy.  Only the `SolverState`
(explored counter and accumulated solutions) can change across a call; the
first component of the result is the entry arrangement, for every fuel value
and in particular for the fully-fuelled `solveBoard`. -/
theorem c7_solve_board_frame (p : Puzzle) :
    (∀ (fuel : Nat) (arr : Arrangement) (prev : Nat) (remaining : List Nat)
        (st : SolverState), (solveBoardFuel p fuel arr prev remaining st).1 = arr) ∧
    (∀ (arr : Arrangement) (prev : Nat) (remaining : List Nat) (st : SolverState),
        (solveBoard p arr prev remaining st).1 = arr) :=
  ⟨solveBoardFuel_fst p, fun arr prev remaining st =>
    solveBoardFuel_fst p (remaining.length + 1) arr prev remaining st⟩

end Polycube
